import Mathlib

/-!
Verification development for the AI Lead Scoring and Enrichment Dashboard.

The repository ships the frontend TypeScript sources together with the
documentation of a six-stage backend pipeline (validation, cleaning, feature
extraction, enrichment, scoring, quality check).  The backend modules
themselves (`validation.py`, `cleaning.py`, `scoring.py`, `enrichment.py`,
`api.py`) are not part of the source tree, so the pipeline components below
are modelled from the specification, while the dashboard components
(`LeadTable.tsx`, the page `filteredLeads` computation) are translated from
the TypeScript sources directly.

The file is organised as: all definitions first, then the theorems.
-/

namespace LeadPipeline

/-! ## Definitions -/

/-! ### Character and string helpers -/

/-- Substring test: `containsSub needle hay` mirrors the `includes` test used
by the dashboard filters and by keyword matching in the scorer / cleaner. -/
def containsSub (needle : List Char) : List Char → Bool
  | [] => needle.isEmpty
  | c :: t => needle.isPrefixOf (c :: t) || containsSub needle t

/-- Lower-case a character list (ASCII, as in the source's `.lower()`). -/
def lowerL (l : List Char) : List Char := l.map Char.toLower

/-- Upper-case a character list. -/
def upperL (l : List Char) : List Char := l.map Char.toUpper

/-! ### The RecordCleaner

Modelled from the spec: `backend/src/utils/cleaning.py` is not in the source
tree.  Specification §4.2 lists the Stage-2 operations: text normalisation
(collapse whitespace, trim, strip stray leading/trailing punctuation, remove
control characters), name cleaning (strip honorifics, title case), email
cleaning (lowercase, remove spaces, collapse doubled `@`/`.`), company
suffix standardisation, job-title abbreviation expansion, location and
industry standardisation, and deduplication by normalised email. -/

/-- Non-printable control characters (removed by text normalisation). -/
def isCtrlB (c : Char) : Bool := c.toNat < 32 || c.toNat == 127

/-- Stray punctuation stripped from word boundaries.  Periods and hyphens are
kept because canonical cleaned values ("Inc.", hyphenated names) use them. -/
def isPunctB (c : Char) : Bool :=
  c == ',' || c == ';' || c == ':' || c == '!' || c == '?' || c == '"'

/-- Remove control characters. -/
def removeCtrl (l : List Char) : List Char := l.filter (fun c => !isCtrlB c)

/-- Split on the space separator into chunks (empty chunks included, as with
`String.split`); the word list keeps only the non-empty chunks. -/
def splitChunks : List Char → List (List Char)
  | [] => [[]]
  | c :: cs =>
    let r := splitChunks cs
    if c = ' ' then [] :: r
    else
      match r with
      | [] => [[c]]
      | w :: ws => (c :: w) :: ws

/-- Split into whitespace-separated words. -/
def splitWords (l : List Char) : List (List Char) :=
  (splitChunks l).filter (fun w => !w.isEmpty)

/-- Join words with single spaces. -/
def joinWords : List (List Char) → List Char
  | [] => []
  | [w] => w
  | w :: ws => w ++ ' ' :: joinWords ws

/-- Strip stray punctuation from both ends of a word. -/
def stripPunct (w : List Char) : List Char :=
  ((w.dropWhile isPunctB).reverse.dropWhile isPunctB).reverse

/-- Normalised word list of a field: remove control characters, split on
whitespace, strip stray edge punctuation, drop emptied words. -/
def wordsOf (l : List Char) : List (List Char) :=
  ((splitWords (removeCtrl l)).map stripPunct).filter (fun w => !w.isEmpty)

/-- A field cleaner given a word-list transformation. -/
def wordPipe (g : List (List Char) → List (List Char)) (l : List Char) : List Char :=
  joinWords (g (wordsOf l))

/-- Invariant of normalised words: non-empty, free of spaces and control
characters, and not edged by stray punctuation. -/
def okWordB (w : List Char) : Bool :=
  !w.isEmpty && w.all (fun c => !(c == ' ') && !isCtrlB c) &&
    (match w.head? with | some c => !isPunctB c | none => true) &&
    (match w.getLast? with | some c => !isPunctB c | none => true)

/-- No adjacent duplicated `@` or `.` pair. -/
def noDupAdjB : List Char → Bool
  | [] => true
  | [_] => true
  | a :: b :: r => !(a == b && (a == '@' || a == '.')) && noDupAdjB (b :: r)

/-- Plain text normalisation (whitespace collapse, trim, edge punctuation,
control characters) with no word-level rewriting. -/
def baseNorm : List Char → List Char := wordPipe id

/-- Title-case scanner: capitalise the first letter of the word and of each
hyphen-separated segment, lower-case the rest. -/
def titleScan : Bool → List Char → List Char
  | _, [] => []
  | start, c :: cs =>
    if c = '-' then '-' :: titleScan true cs
    else (if start then c.toUpper else c.toLower) :: titleScan false cs

/-- Honorific titles stripped from the front of names. -/
def honorifics : List (List Char) :=
  [("mr." : String).data, ("mrs." : String).data, ("ms." : String).data,
    ("dr." : String).data, ("prof." : String).data]

/-- Does a word spell an honorific (case-insensitively)? -/
def isHon (w : List Char) : Bool := honorifics.contains (lowerL w)

/-- Name cleaning at the word level: drop leading honorifics, title-case the
remaining words (hyphenation-aware). -/
def nameWords (ws : List (List Char)) : List (List Char) :=
  (ws.dropWhile isHon).map (titleScan true)

/-- Name cleaning. -/
def nameCleanL : List Char → List Char := wordPipe nameWords

/-- Collapse accidentally doubled `@` or `.` characters. -/
def collapseDup : List Char → List Char
  | [] => []
  | [c] => [c]
  | a :: b :: rest =>
    if a = b ∧ (a = '@' ∨ a = '.') then collapseDup (b :: rest)
    else a :: collapseDup (b :: rest)

/-- Email cleaning: remove control characters, lowercase, remove embedded
spaces, collapse doubled `@`/`.`. -/
def emailCleanL (l : List Char) : List Char :=
  collapseDup ((lowerL (removeCtrl l)).filter (fun c => !(c == ' ')))

/-- Legal-suffix standardisation table, keyed by lower-cased word. -/
def suffixTable : List (List Char × List Char) :=
  [(("incorporated" : String).data, ("Inc." : String).data),
    (("inc" : String).data, ("Inc." : String).data),
    (("inc." : String).data, ("Inc." : String).data),
    (("corporation" : String).data, ("Corp." : String).data),
    (("corp" : String).data, ("Corp." : String).data),
    (("corp." : String).data, ("Corp." : String).data),
    (("limited" : String).data, ("Ltd." : String).data),
    (("ltd" : String).data, ("Ltd." : String).data),
    (("ltd." : String).data, ("Ltd." : String).data),
    (("llc" : String).data, ("LLC" : String).data)]

/-- Acronyms whose capitalisation company cleaning preserves. -/
def companyAcrs : List (List Char) :=
  [("IBM" : String).data, ("AI" : String).data, ("USA" : String).data,
    ("LLC" : String).data]

/-- First-match association lookup on character-list keys. -/
def lookupTbl {β : Type} : List (List Char × β) → List Char → Option β
  | [], _ => none
  | kv :: rest, k => if kv.1 = k then some kv.2 else lookupTbl rest k

/-- Generic word cleaner: canonicalise via a lower-case-keyed table, keep
listed acronyms upper-case, title-case the rest. -/
def tableWord (tbl : List (List Char × List Char)) (acrs : List (List Char))
    (w : List Char) : List Char :=
  match lookupTbl tbl (lowerL w) with
  | some c => c
  | none => if (upperL w) ∈ acrs then upperL w else titleScan true w

/-- Company cleaning at the word level: canonicalise legal suffixes, keep
known acronyms upper-case, title-case the rest. -/
def companyWord : List Char → List Char := tableWord suffixTable companyAcrs

/-- Company cleaning. -/
def companyCleanL : List Char → List Char := wordPipe (List.map companyWord)

/-- Job-title abbreviation expansion, keyed by lower-cased word. -/
def jobAbbrevTable : List (List Char × List Char) :=
  [(("sr." : String).data, ("Senior" : String).data),
    (("sr" : String).data, ("Senior" : String).data),
    (("jr." : String).data, ("Junior" : String).data),
    (("jr" : String).data, ("Junior" : String).data)]

/-- Executive acronyms whose capitalisation is preserved. -/
def execAcrs : List (List Char) :=
  [("CEO" : String).data, ("CTO" : String).data, ("CFO" : String).data,
    ("COO" : String).data, ("VP" : String).data, ("SVP" : String).data,
    ("EVP" : String).data, ("HR" : String).data]

/-- Job-title cleaning at the word level. -/
def jobWord : List Char → List Char := tableWord jobAbbrevTable execAcrs

/-- Job-title cleaning. -/
def jobCleanL : List Char → List Char := wordPipe (List.map jobWord)

/-- State / country standardisation, keyed by lower-cased word. -/
def stateTable : List (List Char × List Char) :=
  [(("california" : String).data, ("CA" : String).data),
    (("texas" : String).data, ("TX" : String).data),
    (("washington" : String).data, ("WA" : String).data),
    (("usa" : String).data, ("USA" : String).data)]

/-- State abbreviations kept upper-case. -/
def stateAbbrs : List (List Char) :=
  [("CA" : String).data, ("TX" : String).data, ("WA" : String).data,
    ("NY" : String).data, ("USA" : String).data]

/-- Location cleaning at the word level. -/
def locWord : List Char → List Char := tableWord stateTable stateAbbrs

/-- Location cleaning. -/
def locCleanL : List Char → List Char := wordPipe (List.map locWord)

/-- Industry keyword table: first keyword contained in the lower-cased text
wins; order puts the more specific keywords first. -/
def industryTable : List (List Char × List Char) :=
  [(("fintech" : String).data, ("financial services" : String).data),
    (("health" : String).data, ("healthcare" : String).data),
    (("financ" : String).data, ("financial services" : String).data),
    (("bank" : String).data, ("financial services" : String).data),
    (("e-commerce" : String).data, ("e-commerce" : String).data),
    (("ecommerce" : String).data, ("e-commerce" : String).data),
    (("tech" : String).data, ("technology" : String).data),
    (("software" : String).data, ("technology" : String).data)]

/-- First matching industry category for a text, if any. -/
def industryLookup : List (List Char × List Char) → List Char → Option (List Char)
  | [], _ => none
  | (kw, cat) :: rest, t =>
    if containsSub kw (lowerL t) then some cat else industryLookup rest t

/-- Industry cleaning: normalise the text, then map onto a canonical category
by keyword containment; unmatched text is preserved as-is. -/
def industryCleanL (l : List Char) : List Char :=
  let t := baseNorm l
  match industryLookup industryTable t with
  | some c => c
  | none => t

/-- A raw/cleaned row with the pipeline's fixed column schema.  A missing
optional column is the empty string. -/
structure Row where
  name : String
  email : String
  company : String
  job_title : String
  location : String
  industry : String
deriving DecidableEq, Repr

/-- Per-field cleaning of one row. -/
def cleanRow (r : Row) : Row :=
  { name := ⟨nameCleanL r.name.data⟩,
    email := ⟨emailCleanL r.email.data⟩,
    company := ⟨companyCleanL r.company.data⟩,
    job_title := ⟨jobCleanL r.job_title.data⟩,
    location := ⟨locCleanL r.location.data⟩,
    industry := ⟨industryCleanL r.industry.data⟩ }

/-- Deduplicate rows by (already cleaned) email, first occurrence wins. -/
def dedupRows (seen : List String) : List Row → List Row
  | [] => []
  | r :: rs =>
    if r.email ∈ seen then dedupRows seen rs
    else r :: dedupRows (r.email :: seen) rs

/-- Stage 2: clean every row's fields, then remove duplicate emails. -/
def cleanStage (rows : List Row) : List Row :=
  dedupRows [] (rows.map cleanRow)

/-! ### The RecordValidator

Modelled from the spec: `backend/src/utils/validation.py` is not in the
source tree.  Specification §4.1: required columns `name`, `email`,
`company`, `job_title`; per-row required-field and email-format checks; the
batch is invalid when columns are missing, the dataset is empty, or fewer
than 50% of the rows pass. -/

/-- Email-format check: `local-part@domain` with at least one dot in the
domain. -/
def emailFormatOkL (l : List Char) : Bool :=
  match l.splitOn '@' with
  | [a, b] => !a.isEmpty && !b.isEmpty && b.contains '.'
  | _ => false

/-- Email-format check on strings. -/
def emailFormatOk (s : String) : Bool := emailFormatOkL s.data

/-- The four required columns. -/
def requiredColumns : List String := ["name", "email", "company", "job_title"]

/-- Does a row pass the required-field and email checks? -/
def rowPasses (r : Row) : Bool :=
  !r.name.isEmpty && !r.email.isEmpty && !r.company.isEmpty &&
    !r.job_title.isEmpty && emailFormatOk r.email

/-- Aggregate outcome of Stage 1. -/
structure ValidationResult where
  is_valid : Bool
  errors : List String
  warnings : List String
  total_rows : Nat
  valid_rows : Nat
  invalid_rows : Nat
  duplicate_emails : Nat
  invalid_emails : Nat
  validRows : List Row
deriving DecidableEq, Repr

/-- Number of rows whose normalised email repeats an earlier row's. -/
def dupEmailCount (rows : List Row) : Nat :=
  rows.length - ((rows.map (fun r => lowerL r.email.data)).dedup).length

/-- Stage 1: `validate(rows, declared_columns) -> ValidationResult`. -/
def validate (columns : List String) (rows : List Row) : ValidationResult :=
  let missing := requiredColumns.filter (fun c => !columns.contains c)
  let okRows := rows.filter rowPasses
  let base : ValidationResult :=
    { is_valid := false, errors := [], warnings := [],
      total_rows := rows.length, valid_rows := okRows.length,
      invalid_rows := rows.length - okRows.length,
      duplicate_emails := dupEmailCount rows,
      invalid_emails := (rows.filter (fun r => !emailFormatOk r.email)).length,
      validRows := [] }
  if !missing.isEmpty then
    { base with errors := missing.map (fun c => "Missing required column: " ++ c) }
  else if rows.isEmpty then
    { base with errors := ["CSV file is empty"] }
  else if 2 * okRows.length < rows.length then
    { base with errors := ["Less than 50% of rows passed validation"] }
  else
    { base with is_valid := true, validRows := okRows }

/-! ### The FeatureExtractor

Modelled from the spec: the `feature_extraction_stage` function of
`backend/src/routes/api.py` is not in the source tree.  Specification §4.3:
construct a typed Lead per row, re-checking required fields defensively,
assigning sequential ids starting at 1; skip a failing row with an error
entry `\x7brow_index, reason\x7d` and continue. -/

/-- The canonical typed entity produced by extraction. -/
structure Lead where
  id : Nat
  name : String
  email : String
  company : String
  job_title : String
  location : Option String
  industry : Option String
deriving DecidableEq, Repr

/-- Defensive re-check: can a Lead be constructed from this row? -/
def constructibleRow (r : Row) : Bool :=
  !r.name.isEmpty && !r.email.isEmpty && !r.company.isEmpty && !r.job_title.isEmpty

/-- Build the Lead for a row (fields already cleaned); optional fields
default to absent rather than placeholder strings. -/
def leadOfRow (id : Nat) (r : Row) : Lead :=
  { id := id, name := r.name, email := r.email, company := r.company,
    job_title := r.job_title,
    location := if r.location.isEmpty then none else some r.location,
    industry := if r.industry.isEmpty then none else some r.industry }

/-- A per-row extraction failure record. -/
structure ExtractErr where
  row_index : Nat
  reason : String
deriving DecidableEq, Repr

/-- Worker: `i` is the current row index, `nextId` the next sequential id. -/
def extractGo (i nextId : Nat) : List Row → List Lead × List ExtractErr
  | [] => ([], [])
  | r :: rs =>
    if constructibleRow r then
      let rest := extractGo (i + 1) (nextId + 1) rs
      (leadOfRow nextId r :: rest.1, rest.2)
    else
      let rest := extractGo (i + 1) nextId rs
      (rest.1, ⟨i, "missing required field"⟩ :: rest.2)

/-- Stage 3: `extract(cleaned_rows) -> (leads, extraction_errors)`. -/
def extract (rows : List Row) : List Lead × List ExtractErr :=
  extractGo 0 1 rows

/-! ### Company size buckets (Enricher / Scorer) -/

inductive CompanySize where
  | over5000
  | from1000to5000
  | from200to1000
  | from50to200
  | under50
  | unknown
deriving DecidableEq, Repr

/-! ### The Enricher

Modelled from the spec: `backend/src/utils/enrichment.py` is not in the
source tree.  Specification §4.4: static company-size lookup with `unknown`
fallback, industry classification from company-name keywords with
`unspecified` fallback, deterministic LinkedIn profile URL, and an email
validity flag re-derived from the validation email-format rule. -/

/-- Static table of known organisations and their size buckets. -/
def sizeTable : List (List Char × CompanySize) :=
  [(("google" : String).data, CompanySize.over5000),
    (("microsoft" : String).data, CompanySize.over5000),
    (("amazon" : String).data, CompanySize.over5000),
    (("stripe" : String).data, CompanySize.from1000to5000),
    (("airbnb" : String).data, CompanySize.from1000to5000),
    (("snowflake" : String).data, CompanySize.from200to1000),
    (("techventures" : String).data, CompanySize.from50to200),
    (("acme" : String).data, CompanySize.under50)]

/-- Case-insensitive company-size lookup; `unknown` on a miss. -/
def companySizeOf (company : String) : CompanySize :=
  (lookupTbl sizeTable (lowerL company.data)).getD CompanySize.unknown

/-- Deterministic LinkedIn profile-search URL. -/
def linkedinOf (name : String) : String :=
  "https://linkedin.com/in/" ++
    ⟨(lowerL name.data).map (fun c => if c == ' ' then '-' else c)⟩

/-- Keep a present industry, otherwise classify the company name, otherwise
`unspecified`. -/
def enrichIndustry (l : Lead) : String :=
  match l.industry with
  | some i => i
  | none =>
    match industryLookup industryTable l.company.data with
    | some c => ⟨c⟩
    | none => "unspecified"

/-- An enriched lead, as consumed by the Scorer. -/
structure ELead where
  id : Nat
  name : String
  email : String
  company : String
  job_title : String
  location : Option String
  industry : String
  company_size : CompanySize
  linkedin_url : String
  email_valid : Option Bool
deriving Repr, DecidableEq

/-- Stage 4: `enrich(lead) -> EnrichedLead`; never drops a Lead. -/
def enrichLead (l : Lead) : ELead :=
  { id := l.id, name := l.name, email := l.email, company := l.company,
    job_title := l.job_title, location := l.location,
    industry := enrichIndustry l,
    company_size := companySizeOf l.company,
    linkedin_url := linkedinOf l.name,
    email_valid := some (emailFormatOk l.email) }

/-! ### The Scorer

Modelled from the spec: `backend/src/utils/scoring.py` is not in the source
tree; the factor tables and the normalisation formula are taken from
specification §4.5 ("Scorer") and the pipeline documentation's
"Scoring Formula" section. -/

/-- Job-title factor: keyword match on the lower-cased title, in priority
order, as given by the spec's factor table. -/
def jobTitleScore (title : String) : ℤ :=
  let t := lowerL title.data
  if containsSub "ceo".data t || containsSub "founder".data t || containsSub "chief".data t then 10
  else if containsSub "president".data t then 9
  else if containsSub "vp".data t || containsSub "director".data t then 7
  else if containsSub "head".data t then 6
  else if containsSub "manager".data t then 5
  else if containsSub "lead".data t then 4
  else if containsSub "senior".data t || containsSub "engineer".data t || containsSub "developer".data t then 3
  else if containsSub "analyst".data t || containsSub "coordinator".data t then 2
  else if containsSub "intern".data t || containsSub "assistant".data t then 1
  else 2

/-- Company-size factor, from the spec's table (`unknown → 3`). -/
def companySizeScore : CompanySize → ℤ
  | .over5000 => 10
  | .from1000to5000 => 9
  | .from200to1000 => 7
  | .from50to200 => 5
  | .under50 => 3
  | .unknown => 3

/-- Industry factor: target industries score 10, adjacent ones 5, others 0. -/
def industryScore (industry : String) : ℤ :=
  if industry = "technology" ∨ industry = "financial services" ∨ industry = "healthcare" then 10
  else if industry = "consulting" ∨ industry = "e-commerce" ∨ industry = "media" then 5
  else 0

/-- Email factor: valid `+5`, invalid `−10`, indeterminate `0`. -/
def emailScore : Option Bool → ℤ
  | some true => 5
  | some false => -10
  | none => 0

/-- The raw weighted sum of the four factors. -/
def rawScore (l : ELead) : ℤ :=
  jobTitleScore l.job_title + companySizeScore l.company_size +
    industryScore l.industry + emailScore l.email_valid

/-- Clamp a rational into `[0, 100]`. -/
def clamp100 (q : ℚ) : ℚ := min 100 (max 0 q)

/-- Round to one decimal place (nearest tenth). -/
def round1 (q : ℚ) : ℚ := (round (q * 10) : ℚ) / 10

/-- Normalised 0–100 score: `clamp(((raw + 10) / 45) * 100, 0, 100)` rounded
to one decimal place. -/
def scoreOfRaw (raw : ℤ) : ℚ := round1 (clamp100 (((raw : ℚ) + 10) / 45 * 100))

/-- A scored lead: the enriched lead plus score and numeric breakdown. -/
structure ScoredLead where
  id : Nat
  name : String
  email : String
  company : String
  job_title : String
  location : Option String
  industry : String
  company_size : CompanySize
  linkedin_url : String
  email_valid : Option Bool
  score : ℚ
  job_title_score : ℤ
  company_size_score : ℤ
  industry_score : ℤ
  email_score : ℤ
  raw_total : ℤ
  enriched : Bool
deriving Repr, DecidableEq

/-- Stage 5, the Scorer: deterministic rule evaluation over the four
factors. -/
def scoreLead (l : ELead) : ScoredLead :=
  { id := l.id, name := l.name, email := l.email, company := l.company,
    job_title := l.job_title, location := l.location, industry := l.industry,
    company_size := l.company_size, linkedin_url := l.linkedin_url,
    email_valid := l.email_valid,
    score := scoreOfRaw (rawScore l),
    job_title_score := jobTitleScore l.job_title,
    company_size_score := companySizeScore l.company_size,
    industry_score := industryScore l.industry,
    email_score := emailScore l.email_valid,
    raw_total := rawScore l,
    enriched := true }

/-! ### Stage 6 (quality check) and the PipelineOrchestrator

Modelled from the spec: the `quality_check_stage` function and orchestrator
of `backend/src/routes/api.py` are not in the source tree.  Specification
§4.6: validation failure is the only abort before scoring; later stages are
best-effort and still complete; the quality check re-verifies emails and
scores and computes the final metrics. -/

/-- Quality-check predicate: a surviving ScoredLead must have a valid-looking
email (its score is populated by construction). -/
def okScored (l : ScoredLead) : Bool := emailFormatOk l.email

/-- End-of-pipeline summary. -/
structure QualityReport where
  total_records : Nat
  processed_records : Nat
  successful_records : Nat
  failed_records : Nat
  success_rate : ℚ
  total_warnings : Nat
  total_errors : Nat
  average_score : ℚ
  high_quality_count : Nat
  high_quality_percentage : ℚ
deriving DecidableEq, Repr

/-- Stage 6: final validation and quality metrics. -/
def qualityCheck (scored : List ScoredLead) (total warnings errors : Nat) :
    QualityReport :=
  let ok := scored.filter okScored
  let hq := ok.filter (fun l => decide (70 ≤ l.score))
  { total_records := total,
    processed_records := scored.length,
    successful_records := ok.length,
    failed_records := total - ok.length,
    success_rate := if total = 0 then 0 else (ok.length : ℚ) / total * 100,
    total_warnings := warnings,
    total_errors := errors,
    average_score := if ok.length = 0 then 0 else (ok.map (fun l => l.score)).sum / ok.length,
    high_quality_count := hq.length,
    high_quality_percentage := if ok.length = 0 then 0 else (hq.length : ℚ) / ok.length * 100 }

inductive StageStatus where
  | pending
  | running
  | completed
  | failed
deriving DecidableEq, Repr

/-- Per-stage telemetry. -/
structure StageRes where
  stage : String
  status : StageStatus
  records : Nat
deriving DecidableEq, Repr

/-- `PipelineResult = \x7bstatus, scored_leads, quality_report, pipeline_error?\x7d`. -/
structure PipelineResult where
  success : Bool
  scored_leads : List ScoredLead
  stage_results : List StageRes
  pipeline_error : Option String
  report : Option QualityReport
deriving DecidableEq, Repr

/-- The PipelineOrchestrator: validation aborts the run when `is_valid` is
false; otherwise each stage runs best-effort, dropping bad records and
completing. -/
def runPipeline (columns : List String) (rows : List Row) : PipelineResult :=
  let v := validate columns rows
  if v.is_valid then
    let cleaned := cleanStage v.validRows
    let ext := extract cleaned
    let enriched := ext.1.map enrichLead
    let scored := enriched.map scoreLead
    let finalLeads := scored.filter okScored
    let report := qualityCheck scored rows.length v.warnings.length ext.2.length
    { success := true, scored_leads := finalLeads,
      stage_results :=
        [⟨"validation", .completed, rows.length⟩,
          ⟨"cleaning", .completed, cleaned.length⟩,
          ⟨"feature_extraction", .completed, ext.1.length⟩,
          ⟨"enrichment", .completed, enriched.length⟩,
          ⟨"scoring", .completed, scored.length⟩,
          ⟨"quality_check", .completed, finalLeads.length⟩],
      pipeline_error := none, report := some report }
  else
    { success := false, scored_leads := [],
      stage_results := [⟨"validation", .completed, rows.length⟩],
      pipeline_error := some (String.intercalate "; " v.errors),
      report := none }

/-! ### The dashboard (translated from the TypeScript sources)

`Frontend.FLead` is the `Lead` interface of
`src/frontend/src/components/LeadTable.tsx`; `displayedLeads` is the
component's `sortedLeads` computation in its initial sort state
(`sortField = score`, `sortDirection = desc`); `filteredLeads` is the
dashboard page's filter computation. -/

namespace Frontend

/-- The `Lead` interface of `LeadTable.tsx` (scores are numbers; optional
fields may be absent). -/
structure FLead where
  id : Option Nat
  name : String
  email : String
  company : String
  job_title : String
  industry : Option String
  location : Option String
  company_size : Option String
  linkedin_url : Option String
  email_valid : Option Bool
  score : ℚ
  enriched : Option Bool
deriving DecidableEq, Repr

/-- `type SortField` of `LeadTable.tsx`. -/
inductive SortField where
  | nameF
  | companyF
  | jobTitleF
  | scoreF
  | industryF
  | sizeF
deriving DecidableEq, Repr

/-- `type SortDirection = asc | desc | null`. -/
inductive SortDir where
  | asc
  | desc
deriving DecidableEq, Repr

/-- The component's sort state. -/
structure SortState where
  field : SortField
  dir : Option SortDir
deriving DecidableEq, Repr

/-- `useState<SortField>('score')` and `useState<SortDirection>('desc')`. -/
def initialSortState : SortState := { field := SortField.scoreF, dir := some SortDir.desc }

/-- The comparator of `sortedLeads` specialised to the initial state
(field `score`, direction `desc`): `aValue < bValue → 1`,
`aValue > bValue → −1`, else `0` (scores are never undefined). -/
def cmpScoreDesc (a b : FLead) : ℤ :=
  if a.score < b.score then 1 else if b.score < a.score then -1 else 0

/-- `sortedLeads = [...leads].sort(comparator)` in the initial sort state. -/
def displayedLeads (leads : List FLead) : List FLead :=
  leads.mergeSort (fun a b => decide (cmpScoreDesc a b ≤ 0))

/-- `FilterState` of `FiltersPanel.tsx`. -/
structure FilterState where
  searchTerm : String
  industry : String
  location : String
  minScore : ℚ
deriving DecidableEq, Repr

/-- Lower-casing as used via `.toLowerCase()`. -/
def lowerS (s : String) : String := ⟨lowerL s.data⟩

/-- `hay.includes(sub)`. -/
def strIncludes (hay sub : String) : Bool := containsSub sub.data hay.data

/-- `matchesSearch`: an empty search term matches; otherwise the lowered
term must occur in the lead's name, company, or job title. -/
def matchesSearch (f : FilterState) (l : FLead) : Bool :=
  f.searchTerm == "" ||
    (strIncludes (lowerS l.name) (lowerS f.searchTerm) ||
      strIncludes (lowerS l.company) (lowerS f.searchTerm) ||
      strIncludes (lowerS l.job_title) (lowerS f.searchTerm))

/-- `matchesIndustry` / `matchesLocation`: empty filter matches; a missing
optional field yields `false` (the `?? false` fallback). -/
def matchesOpt (filterVal : String) (field : Option String) : Bool :=
  filterVal == "" ||
    (match field with
      | some v => strIncludes (lowerS v) (lowerS filterVal)
      | none => false)

/-- The conjunction returned by the page's filter callback. -/
def leadMatches (f : FilterState) (l : FLead) : Bool :=
  matchesSearch f l && matchesOpt f.industry l.industry &&
    matchesOpt f.location l.location && decide (f.minScore ≤ l.score)

/-- `filteredLeads = leads.filter(...)` of `src/frontend/src/app/page.tsx`. -/
def filteredLeads (f : FilterState) (leads : List FLead) : List FLead :=
  leads.filter (leadMatches f)

end Frontend

/-! ### Concrete example data (used to evaluate the theorems on inputs) -/

/-- The full required-column set. -/
def fullColumns : List String := ["name", "email", "company", "job_title"]

/-- A column set missing `company` and `job_title`. -/
def partialColumns : List String := ["name", "email"]

def exRowOk : Row :=
  { name := "Ada Lovelace", email := "ada@acme.com", company := "Acme",
    job_title := "CEO", location := "", industry := "" }

def exRowBad : Row :=
  { name := "", email := "nope", company := "", job_title := "",
    location := "", industry := "" }

/-- A 100-row batch with exactly 49% passing rows. -/
def exBatch49 : List Row := List.replicate 49 exRowOk ++ List.replicate 51 exRowBad

/-- A 100-row batch with exactly 51% passing rows. -/
def exBatch51 : List Row := List.replicate 51 exRowOk ++ List.replicate 49 exRowBad

def exDupR1 : Row :=
  { name := "John Smith", email := " JOHN@x.com", company := "Acme",
    job_title := "VP", location := "", industry := "" }

def exDupR2 : Row :=
  { name := "Johnny", email := "john@X.COM", company := "Other",
    job_title := "Intern", location := "", industry := "" }

/-- Two rows whose emails agree after case/whitespace normalisation. -/
def exDupRows : List Row := [exDupR1, exDupR2]

/-- A batch whose middle row fails Lead construction. -/
def exMixedRows : List Row := [exRowOk, exRowBad, exRowOk]

def exBatchSmall : List Row := [exRowOk]

def exScoredOk : ScoredLead :=
  { id := 1, name := "A", email := "a@b.c", company := "C", job_title := "T",
    location := none, industry := "technology", company_size := CompanySize.unknown,
    linkedin_url := "", email_valid := some true, score := 80,
    job_title_score := 10, company_size_score := 3, industry_score := 10,
    email_score := 5, raw_total := 28, enriched := true }

def exScoredBad : ScoredLead := { exScoredOk with email := "bad" }

/-- 100 scored leads of which exactly 95 pass the quality check. -/
def exScoredBatch : List ScoredLead :=
  List.replicate 95 exScoredOk ++ List.replicate 5 exScoredBad

/-! ## Theorems -/

/-! ### Character-level lemmas -/

theorem char_toNat_ofNat_of_lt {n : Nat} (h : n < 55296) : (Char.ofNat n).toNat = n := by
  have hv : n.isValidChar := Or.inl h
  rw [Char.ofNat, dif_pos hv]
  rfl

theorem toLower_eq_ite (c : Char) :
    Char.toLower c = if c.toNat ≥ 65 ∧ c.toNat ≤ 90 then Char.ofNat (c.toNat + 32) else c := rfl

theorem toUpper_eq_ite (c : Char) :
    Char.toUpper c = if c.toNat ≥ 97 ∧ c.toNat ≤ 122 then Char.ofNat (c.toNat - 32) else c := rfl

/-- `Char.toLower` either leaves the character unchanged or shifts an
upper-case ASCII letter into `[97,122]`. -/
theorem toLower_spec (c : Char) :
    Char.toLower c = c ∨
      ((Char.toLower c).toNat = c.toNat + 32 ∧ 65 ≤ c.toNat ∧ c.toNat ≤ 90) := by
  rw [toLower_eq_ite]
  split
  · rename_i h
    right
    exact ⟨char_toNat_ofNat_of_lt (by omega), h.1, h.2⟩
  · left; rfl

/-- `Char.toUpper` either leaves the character unchanged or shifts a
lower-case ASCII letter into `[65,90]`. -/
theorem toUpper_spec (c : Char) :
    Char.toUpper c = c ∨
      ((Char.toUpper c).toNat = c.toNat - 32 ∧ 97 ≤ c.toNat ∧ c.toNat ≤ 122) := by
  rw [toUpper_eq_ite]
  split
  · rename_i h
    right
    exact ⟨char_toNat_ofNat_of_lt (by omega), h.1, h.2⟩
  · left; rfl

theorem toLower_toLower (c : Char) : Char.toLower (Char.toLower c) = Char.toLower c := by
  rcases toLower_spec c with h | ⟨h, h1, h2⟩
  · rw [h, h]
  · rw [toLower_eq_ite (Char.toLower c), if_neg (by omega)]

theorem toUpper_toUpper (c : Char) : Char.toUpper (Char.toUpper c) = Char.toUpper c := by
  rcases toUpper_spec c with h | ⟨h, h1, h2⟩
  · rw [h, h]
  · rw [toUpper_eq_ite (Char.toUpper c), if_neg (by omega)]

theorem toLower_toUpper (c : Char) : Char.toLower (Char.toUpper c) = Char.toLower c := by
  rcases toUpper_spec c with h | ⟨h, h1, h2⟩
  · rw [h]
  · rw [toLower_eq_ite (Char.toUpper c), if_pos (by omega),
      toLower_eq_ite c, if_neg (by omega)]
    have : c.toNat - 32 + 32 = c.toNat := by omega
    rw [h, this, Char.ofNat_toNat]

theorem toUpper_toLower (c : Char) : Char.toUpper (Char.toLower c) = Char.toUpper c := by
  rcases toLower_spec c with h | ⟨h, h1, h2⟩
  · rw [h]
  · rw [toUpper_eq_ite (Char.toLower c), if_pos (by omega),
      toUpper_eq_ite c, if_neg (by omega)]
    have : c.toNat + 32 - 32 = c.toNat := by omega
    rw [h, this, Char.ofNat_toNat]

theorem toLower_toNat_cases (c : Char) :
    (Char.toLower c).toNat = c.toNat ∨
      ((Char.toLower c).toNat = c.toNat + 32 ∧ 65 ≤ c.toNat ∧ c.toNat ≤ 90) := by
  rcases toLower_spec c with h | h
  · left; rw [h]
  · right; exact h

theorem toUpper_toNat_cases (c : Char) :
    (Char.toUpper c).toNat = c.toNat ∨
      ((Char.toUpper c).toNat = c.toNat - 32 ∧ 97 ≤ c.toNat ∧ c.toNat ≤ 122) := by
  rcases toUpper_spec c with h | h
  · left; rw [h]
  · right; exact h

theorem lowerL_lowerL (l : List Char) : lowerL (lowerL l) = lowerL l := by
  simp only [lowerL, List.map_map]
  exact List.map_congr_left (fun c _ => toLower_toLower c)

theorem lowerL_upperL (l : List Char) : lowerL (upperL l) = lowerL l := by
  simp only [lowerL, upperL, List.map_map]
  exact List.map_congr_left (fun c _ => toLower_toUpper c)

theorem upperL_upperL (l : List Char) : upperL (upperL l) = upperL l := by
  simp only [upperL, List.map_map]
  exact List.map_congr_left (fun c _ => toUpper_toUpper c)

theorem upperL_lowerL (l : List Char) : upperL (lowerL l) = upperL l := by
  simp only [upperL, lowerL, List.map_map]
  exact List.map_congr_left (fun c _ => toUpper_toLower c)

theorem char_eq_of_toNat_eq {c d : Char} (h : c.toNat = d.toNat) : c = d := by
  have hc := Char.ofNat_toNat c
  rw [h, Char.ofNat_toNat] at hc
  exact hc.symm

theorem char_eq_iff_toNat {c d : Char} : c = d ↔ c.toNat = d.toNat :=
  ⟨fun h => by rw [h], char_eq_of_toNat_eq⟩

/-- If `d` is not an upper-case letter, `toUpper c = d` forces `c = d`. -/
theorem eq_of_toUpper_eq {c d : Char} (hd : ¬(65 ≤ d.toNat ∧ d.toNat ≤ 90))
    (h : Char.toUpper c = d) : c = d := by
  rcases toUpper_spec c with h' | ⟨h', h1, h2⟩
  · rw [← h', h]
  · exfalso
    rw [h] at h'
    omega

/-- If `d` is not a lower-case letter, `toLower c = d` forces `c = d`. -/
theorem eq_of_toLower_eq {c d : Char} (hd : ¬(97 ≤ d.toNat ∧ d.toNat ≤ 122))
    (h : Char.toLower c = d) : c = d := by
  rcases toLower_spec c with h' | ⟨h', h1, h2⟩
  · rw [← h', h]
  · exfalso
    rw [h] at h'
    omega

theorem isPunctB_toNat {c : Char} (h : isPunctB c = true) :
    c.toNat = 44 ∨ c.toNat = 59 ∨ c.toNat = 58 ∨ c.toNat = 33 ∨ c.toNat = 63 ∨ c.toNat = 34 := by
  unfold isPunctB at h
  simp only [Bool.or_eq_true, beq_iff_eq] at h
  rcases h with ((((h | h) | h) | h) | h) | h <;> subst h <;> decide

theorem isPunctB_false_of_toNat {c : Char}
    (h : c.toNat ≠ 44 ∧ c.toNat ≠ 59 ∧ c.toNat ≠ 58 ∧ c.toNat ≠ 33 ∧ c.toNat ≠ 63 ∧ c.toNat ≠ 34) :
    isPunctB c = false := by
  cases hb : isPunctB c
  · rfl
  · have := isPunctB_toNat hb
    omega

theorem isCtrlB_iff {c : Char} : isCtrlB c = true ↔ c.toNat < 32 ∨ c.toNat = 127 := by
  unfold isCtrlB
  simp [Nat.lt_iff_add_one_le]

theorem isPunctB_toUpper (c : Char) : isPunctB (Char.toUpper c) = isPunctB c := by
  rcases toUpper_spec c with h | ⟨h, h1, h2⟩
  · rw [h]
  · have hup : isPunctB (Char.toUpper c) = false :=
      isPunctB_false_of_toNat (by omega)
    have hlo : isPunctB c = false := isPunctB_false_of_toNat (by omega)
    rw [hup, hlo]

theorem isPunctB_toLower (c : Char) : isPunctB (Char.toLower c) = isPunctB c := by
  rcases toLower_spec c with h | ⟨h, h1, h2⟩
  · rw [h]
  · have hup : isPunctB (Char.toLower c) = false :=
      isPunctB_false_of_toNat (by omega)
    have hlo : isPunctB c = false := isPunctB_false_of_toNat (by omega)
    rw [hup, hlo]

theorem isCtrlB_toUpper (c : Char) : isCtrlB (Char.toUpper c) = isCtrlB c := by
  rcases toUpper_spec c with h | ⟨h, h1, h2⟩
  · rw [h]
  · have hup : isCtrlB (Char.toUpper c) = false := by
      cases hb : isCtrlB (Char.toUpper c)
      · rfl
      · have := isCtrlB_iff.mp hb; omega
    have hlo : isCtrlB c = false := by
      cases hb : isCtrlB c
      · rfl
      · have := isCtrlB_iff.mp hb; omega
    rw [hup, hlo]

theorem isCtrlB_toLower (c : Char) : isCtrlB (Char.toLower c) = isCtrlB c := by
  rcases toLower_spec c with h | ⟨h, h1, h2⟩
  · rw [h]
  · have hup : isCtrlB (Char.toLower c) = false := by
      cases hb : isCtrlB (Char.toLower c)
      · rfl
      · have := isCtrlB_iff.mp hb; omega
    have hlo : isCtrlB c = false := by
      cases hb : isCtrlB c
      · rfl
      · have := isCtrlB_iff.mp hb; omega
    rw [hup, hlo]

theorem toUpper_ne_space {c : Char} (h : c ≠ ' ') : Char.toUpper c ≠ ' ' := by
  intro hc
  exact h (eq_of_toUpper_eq (by decide) hc)

theorem toLower_ne_space {c : Char} (h : c ≠ ' ') : Char.toLower c ≠ ' ' := by
  intro hc
  exact h (eq_of_toLower_eq (by decide) hc)

theorem toUpper_ne_hyphen {c : Char} (h : c ≠ '-') : Char.toUpper c ≠ '-' := by
  intro hc
  exact h (eq_of_toUpper_eq (by decide) hc)

theorem toLower_ne_hyphen {c : Char} (h : c ≠ '-') : Char.toLower c ≠ '-' := by
  intro hc
  exact h (eq_of_toLower_eq (by decide) hc)

/-! ### Splitting into words and joining back -/

theorem splitChunks_ne_nil (l : List Char) : splitChunks l ≠ [] := by
  induction l with
  | nil => simp [splitChunks]
  | cons c cs ih =>
    unfold splitChunks
    dsimp only
    split
    · simp
    · split
      · simp
      · simp

theorem splitChunks_no_space {l : List Char} {w : List Char}
    (hw : w ∈ splitChunks l) : ' ' ∉ w := by
  induction l generalizing w with
  | nil =>
    simp [splitChunks] at hw
    subst hw
    simp
  | cons c cs ih =>
    unfold splitChunks at hw
    dsimp only at hw
    split at hw
    · rcases List.mem_cons.mp hw with h | h
      · subst h; simp
      · exact ih h
    · rename_i hc
      rcases hchunks : splitChunks cs with _ | ⟨v, vs⟩
      · exact absurd hchunks (splitChunks_ne_nil cs)
      · rw [hchunks] at hw
        rcases List.mem_cons.mp hw with h | h
        · subst h
          intro hmem
          rcases List.mem_cons.mp hmem with h' | h'
          · exact hc h'.symm
          · exact ih (hchunks ▸ List.mem_cons_self v vs) h'
        · exact ih (hchunks ▸ List.mem_cons_of_mem v h)

theorem mem_of_mem_splitChunks {l w : List Char} {c : Char}
    (hw : w ∈ splitChunks l) (hc : c ∈ w) : c ∈ l := by
  induction l generalizing w with
  | nil =>
    simp [splitChunks] at hw
    subst hw
    simp at hc
  | cons a cs ih =>
    unfold splitChunks at hw
    dsimp only at hw
    split at hw
    · rcases List.mem_cons.mp hw with h | h
      · subst h; simp at hc
      · exact List.mem_cons_of_mem a (ih h hc)
    · rcases hchunks : splitChunks cs with _ | ⟨v, vs⟩
      · exact absurd hchunks (splitChunks_ne_nil cs)
      · rw [hchunks] at hw
        rcases List.mem_cons.mp hw with h | h
        · subst h
          rcases List.mem_cons.mp hc with h' | h'
          · exact h' ▸ List.mem_cons_self a cs
          · exact List.mem_cons_of_mem a
              (ih (hchunks ▸ List.mem_cons_self v vs) h')
        · exact List.mem_cons_of_mem a
            (ih (hchunks ▸ List.mem_cons_of_mem v h) hc)

theorem splitChunks_cons (c : Char) (cs : List Char) :
    splitChunks (c :: cs) =
      if c = ' ' then [] :: splitChunks cs
      else
        match splitChunks cs with
        | [] => [[c]]
        | w :: ws => (c :: w) :: ws := rfl

theorem splitChunks_space (l : List Char) :
    splitChunks (' ' :: l) = [] :: splitChunks l := by
  rw [splitChunks_cons, if_pos rfl]

theorem splitChunks_cons_ne {c : Char} (l : List Char) (hc : c ≠ ' ') :
    splitChunks (c :: l) = (c :: (splitChunks l).headI) :: (splitChunks l).tail := by
  obtain ⟨v, vs, hvs⟩ := List.exists_cons_of_ne_nil (splitChunks_ne_nil l)
  rw [splitChunks_cons, if_neg hc, hvs]
  simp

theorem splitChunks_append_word {w l : List Char} (hw : ∀ c ∈ w, c ≠ ' ') :
    splitChunks (w ++ l) = (w ++ (splitChunks l).headI) :: (splitChunks l).tail := by
  induction w with
  | nil =>
    obtain ⟨v, vs, hvs⟩ := List.exists_cons_of_ne_nil (splitChunks_ne_nil l)
    rw [List.nil_append, hvs]
    simp
  | cons c cs ih =>
    have hc : c ≠ ' ' := hw c (List.mem_cons_self c cs)
    have hcs : ∀ d ∈ cs, d ≠ ' ' := fun d hd => hw d (List.mem_cons_of_mem c hd)
    rw [List.cons_append, splitChunks_cons_ne _ hc, ih hcs]
    simp

theorem splitWords_space (l : List Char) : splitWords (' ' :: l) = splitWords l := by
  unfold splitWords
  rw [splitChunks_space]
  simp

theorem splitWords_append_word {w l : List Char} (hne : w ≠ []) (hw : ∀ c ∈ w, c ≠ ' ') :
    splitWords (w ++ ' ' :: l) = w :: splitWords l := by
  unfold splitWords
  rw [splitChunks_append_word hw, splitChunks_space]
  simp [hne]

theorem splitWords_single {w : List Char} (hne : w ≠ []) (hw : ∀ c ∈ w, c ≠ ' ') :
    splitWords w = [w] := by
  have : splitWords (w ++ []) = [w] := by
    unfold splitWords
    rw [splitChunks_append_word hw]
    simp [splitChunks, hne]
  simpa using this

/-! ### Stray-punctuation stripping -/

theorem dropWhile_head?_not {α : Type} {p : α → Bool} {l : List α} {c : α}
    (h : (l.dropWhile p).head? = some c) : p c = false := by
  induction l with
  | nil => simp at h
  | cons a t ih =>
    rw [List.dropWhile_cons] at h
    split at h
    · exact ih h
    · rename_i ha
      simp at h
      subst h
      simpa using ha

theorem dropWhile_eq_self_of_head? {α : Type} {p : α → Bool} {l : List α}
    (h : ∀ c, l.head? = some c → p c = false) : l.dropWhile p = l := by
  cases l with
  | nil => rfl
  | cons a t =>
    rw [List.dropWhile_cons, if_neg]
    simp [h a rfl]

theorem dropWhile_dropWhile {α : Type} (p : α → Bool) (l : List α) :
    (l.dropWhile p).dropWhile p = l.dropWhile p := by
  apply dropWhile_eq_self_of_head?
  intro c hc
  exact dropWhile_head?_not hc

theorem getLast?_dropWhile {α : Type} {p : α → Bool} {l : List α}
    (h : l.dropWhile p ≠ []) : (l.dropWhile p).getLast? = l.getLast? := by
  induction l with
  | nil => simp at h
  | cons a t ih =>
    rw [List.dropWhile_cons]
    rw [List.dropWhile_cons] at h
    split
    · rename_i ha
      rw [if_pos ha] at h
      rw [ih h]
      cases t with
      | nil => simp [List.dropWhile] at h
      | cons b t' => simp
    · rfl

theorem mem_stripPunct {w : List Char} {c : Char} (h : c ∈ stripPunct w) : c ∈ w := by
  unfold stripPunct at h
  rw [List.mem_reverse] at h
  have h1 := (List.dropWhile_sublist (l := (w.dropWhile isPunctB).reverse) isPunctB).mem h
  rw [List.mem_reverse] at h1
  exact (List.dropWhile_sublist (l := w) isPunctB).mem h1

theorem stripPunct_head?_not {w : List Char} {c : Char}
    (h : (stripPunct w).head? = some c) : isPunctB c = false := by
  unfold stripPunct at h
  rw [List.head?_reverse] at h
  rcases hy : (w.dropWhile isPunctB).reverse.dropWhile isPunctB with _ | ⟨b, t⟩
  · rw [hy] at h; simp at h
  · have hne : (w.dropWhile isPunctB).reverse.dropWhile isPunctB ≠ [] := by
      rw [hy]; simp
    rw [getLast?_dropWhile hne, List.getLast?_reverse] at h
    exact dropWhile_head?_not h

theorem stripPunct_getLast?_not {w : List Char} {c : Char}
    (h : (stripPunct w).getLast? = some c) : isPunctB c = false := by
  unfold stripPunct at h
  rw [List.getLast?_reverse] at h
  exact dropWhile_head?_not h

theorem stripPunct_eq_self {w : List Char}
    (h1 : ∀ c, w.head? = some c → isPunctB c = false)
    (h2 : ∀ c, w.getLast? = some c → isPunctB c = false) : stripPunct w = w := by
  unfold stripPunct
  rw [dropWhile_eq_self_of_head? h1]
  rw [dropWhile_eq_self_of_head? (by
    intro c hc
    rw [List.head?_reverse] at hc
    exact h2 c hc)]
  exact List.reverse_reverse w

theorem mem_joinWords {ws : List (List Char)} {c : Char} (h : c ∈ joinWords ws) :
    c = ' ' ∨ ∃ w ∈ ws, c ∈ w := by
  induction ws with
  | nil => simp [joinWords] at h
  | cons w ws ih =>
    cases ws with
    | nil =>
      right
      exact ⟨w, List.mem_cons_self _ _, by simpa [joinWords] using h⟩
    | cons w' ws' =>
      rw [show joinWords (w :: w' :: ws') = w ++ ' ' :: joinWords (w' :: ws') from rfl] at h
      rcases List.mem_append.mp h with h | h
      · right; exact ⟨w, List.mem_cons_self _ _, h⟩
      · rcases List.mem_cons.mp h with h | h
        · left; exact h
        · rcases ih h with h | ⟨v, hv, hc⟩
          · left; exact h
          · right; exact ⟨v, List.mem_cons_of_mem _ hv, hc⟩

theorem splitWords_joinWords {ws : List (List Char)}
    (h : ∀ w ∈ ws, w ≠ [] ∧ ' ' ∉ w) : splitWords (joinWords ws) = ws := by
  induction ws with
  | nil => simp [joinWords, splitWords, splitChunks]
  | cons w ws ih =>
    obtain ⟨hne, hsp⟩ := h w (List.mem_cons_self _ _)
    have hw : ∀ c ∈ w, c ≠ ' ' := fun c hc hceq => hsp (hceq ▸ hc)
    cases ws with
    | nil =>
      show splitWords w = [w]
      exact splitWords_single hne hw
    | cons w' ws' =>
      rw [show joinWords (w :: w' :: ws') = w ++ ' ' :: joinWords (w' :: ws') from rfl,
        splitWords_append_word hne hw,
        ih (fun v hv => h v (List.mem_cons_of_mem _ hv))]

/-! ### The normalised-word invariant and the generic word pipeline -/

theorem okWordB_parts {w : List Char} (h : okWordB w = true) :
    w ≠ [] ∧ (∀ c ∈ w, c ≠ ' ' ∧ isCtrlB c = false) ∧
      (∀ c, w.head? = some c → isPunctB c = false) ∧
      (∀ c, w.getLast? = some c → isPunctB c = false) := by
  unfold okWordB at h
  rw [Bool.and_eq_true, Bool.and_eq_true, Bool.and_eq_true] at h
  obtain ⟨⟨⟨h1, h2⟩, h3⟩, h4⟩ := h
  refine ⟨by simpa using h1, ?_, ?_, ?_⟩
  · intro c hc
    have hall := List.all_eq_true.mp h2 c hc
    rw [Bool.and_eq_true] at hall
    obtain ⟨ha, hb⟩ := hall
    refine ⟨?_, by simpa using hb⟩
    intro he
    rw [he] at ha
    simp at ha
  · intro c hc
    rw [hc] at h3
    simpa using h3
  · intro c hc
    rw [hc] at h4
    simpa using h4

theorem okWordB_mk {w : List Char} (h1 : w ≠ [])
    (h2 : ∀ c ∈ w, c ≠ ' ' ∧ isCtrlB c = false)
    (h3 : ∀ c, w.head? = some c → isPunctB c = false)
    (h4 : ∀ c, w.getLast? = some c → isPunctB c = false) : okWordB w = true := by
  unfold okWordB
  rw [Bool.and_eq_true, Bool.and_eq_true, Bool.and_eq_true]
  refine ⟨⟨⟨by simpa using h1, ?_⟩, ?_⟩, ?_⟩
  · rw [List.all_eq_true]
    intro c hc
    rw [Bool.and_eq_true]
    obtain ⟨ha, hb⟩ := h2 c hc
    exact ⟨by simpa using ha, by simpa using hb⟩
  · cases hh : w.head? with
    | none => rfl
    | some c => simpa using h3 c hh
  · cases hh : w.getLast? with
    | none => rfl
    | some c => simpa using h4 c hh

theorem wordsOf_all_ok (l : List Char) : ∀ w ∈ wordsOf l, okWordB w = true := by
  intro w hw
  unfold wordsOf at hw
  rw [List.mem_filter] at hw
  obtain ⟨hmem, hne⟩ := hw
  rw [List.mem_map] at hmem
  obtain ⟨v, hv, rfl⟩ := hmem
  have hvchunk : v ∈ splitChunks (removeCtrl l) := by
    unfold splitWords at hv
    exact (List.mem_filter.mp hv).1
  apply okWordB_mk
  · simpa using hne
  · intro c hc
    have hcv := mem_stripPunct hc
    constructor
    · intro he
      exact splitChunks_no_space hvchunk (he ▸ hcv)
    · have hcl : c ∈ removeCtrl l := mem_of_mem_splitChunks hvchunk hcv
      unfold removeCtrl at hcl
      have := (List.mem_filter.mp hcl).2
      simpa using this
  · intro c hc
    exact stripPunct_head?_not hc
  · intro c hc
    exact stripPunct_getLast?_not hc

theorem wordsOf_joinWords {ws : List (List Char)}
    (h : ∀ w ∈ ws, okWordB w = true) : wordsOf (joinWords ws) = ws := by
  have hctrl : removeCtrl (joinWords ws) = joinWords ws := by
    unfold removeCtrl
    rw [List.filter_eq_self]
    intro c hc
    rcases mem_joinWords hc with rfl | ⟨w, hw, hcw⟩
    · decide
    · have := ((okWordB_parts (h w hw)).2.1 c hcw).2
      simp [this]
  have hsplit : splitWords (joinWords ws) = ws := by
    apply splitWords_joinWords
    intro w hw
    obtain ⟨h1, h2, _, _⟩ := okWordB_parts (h w hw)
    exact ⟨h1, fun hsp => (h2 ' ' hsp).1 rfl⟩
  unfold wordsOf
  rw [hctrl, hsplit]
  have hmap : ws.map stripPunct = ws := by
    conv_rhs => rw [← List.map_id ws]
    apply List.map_congr_left
    intro w hw
    obtain ⟨_, _, h3, h4⟩ := okWordB_parts (h w hw)
    exact stripPunct_eq_self h3 h4
  rw [hmap, List.filter_eq_self]
  intro w hw
  simpa using (okWordB_parts (h w hw)).1

/-- Idempotence of a word-pipeline field cleaner, given that the word-level
transformation preserves the word invariant and is idempotent on invariant
word lists. -/
theorem wordPipe_idem (g : List (List Char) → List (List Char))
    (hok : ∀ ws, (∀ w ∈ ws, okWordB w = true) → ∀ w ∈ g ws, okWordB w = true)
    (hid : ∀ ws, (∀ w ∈ ws, okWordB w = true) → g (g ws) = g ws)
    (l : List Char) : wordPipe g (wordPipe g l) = wordPipe g l := by
  unfold wordPipe
  have hws : ∀ w ∈ wordsOf l, okWordB w = true := wordsOf_all_ok l
  have hws' : ∀ w ∈ g (wordsOf l), okWordB w = true := hok _ hws
  rw [wordsOf_joinWords hws', hid _ hws]

theorem baseNorm_idem (l : List Char) : baseNorm (baseNorm l) = baseNorm l :=
  wordPipe_idem id (fun _ h => h) (fun _ _ => rfl) l

/-! ### The title-case scanner -/

theorem titleScan_hyphen_cons (b : Bool) (cs : List Char) :
    titleScan b ('-' :: cs) = '-' :: titleScan true cs := by
  simp [titleScan]

theorem titleScan_true_cons {c : Char} (hc : c ≠ '-') (cs : List Char) :
    titleScan true (c :: cs) = c.toUpper :: titleScan false cs := by
  simp [titleScan, hc]

theorem titleScan_false_cons {c : Char} (hc : c ≠ '-') (cs : List Char) :
    titleScan false (c :: cs) = c.toLower :: titleScan false cs := by
  simp [titleScan, hc]

theorem titleScan_ne_nil {w : List Char} (h : w ≠ []) (b : Bool) :
    titleScan b w ≠ [] := by
  cases w with
  | nil => exact absurd rfl h
  | cons c cs =>
    by_cases hc : c = '-'
    · subst hc; rw [titleScan_hyphen_cons]; simp
    · cases b with
      | true => rw [titleScan_true_cons hc]; simp
      | false => rw [titleScan_false_cons hc]; simp

theorem lowerL_titleScan (b : Bool) (w : List Char) :
    lowerL (titleScan b w) = lowerL w := by
  induction w generalizing b with
  | nil => rfl
  | cons c cs ih =>
    by_cases hc : c = '-'
    · subst hc
      rw [titleScan_hyphen_cons]
      show Char.toLower '-' :: lowerL (titleScan true cs) = Char.toLower '-' :: lowerL cs
      rw [ih]
    · cases b with
      | true =>
        rw [titleScan_true_cons hc]
        show Char.toLower _ :: lowerL (titleScan false cs) = Char.toLower c :: lowerL cs
        rw [ih, toLower_toUpper]
      | false =>
        rw [titleScan_false_cons hc]
        show Char.toLower _ :: lowerL (titleScan false cs) = Char.toLower c :: lowerL cs
        rw [ih, toLower_toLower]

theorem upperL_titleScan (b : Bool) (w : List Char) :
    upperL (titleScan b w) = upperL w := by
  induction w generalizing b with
  | nil => rfl
  | cons c cs ih =>
    by_cases hc : c = '-'
    · subst hc
      rw [titleScan_hyphen_cons]
      show Char.toUpper '-' :: upperL (titleScan true cs) = Char.toUpper '-' :: upperL cs
      rw [ih]
    · cases b with
      | true =>
        rw [titleScan_true_cons hc]
        show Char.toUpper _ :: upperL (titleScan false cs) = Char.toUpper c :: upperL cs
        rw [ih, toUpper_toUpper]
      | false =>
        rw [titleScan_false_cons hc]
        show Char.toUpper _ :: upperL (titleScan false cs) = Char.toUpper c :: upperL cs
        rw [ih, toUpper_toLower]

theorem titleScan_chars {b : Bool} {w : List Char} {d : Char}
    (h : d ∈ titleScan b w) : ∃ c ∈ w, d = c ∨ d = c.toUpper ∨ d = c.toLower := by
  induction w generalizing b with
  | nil => simp [titleScan] at h
  | cons c cs ih =>
    by_cases hc : c = '-'
    · subst hc
      rw [titleScan_hyphen_cons] at h
      rcases List.mem_cons.mp h with h | h
      · exact ⟨'-', List.mem_cons_self _ _, Or.inl h⟩
      · obtain ⟨c', hc', hd⟩ := ih h
        exact ⟨c', List.mem_cons_of_mem _ hc', hd⟩
    · cases b with
      | true =>
        rw [titleScan_true_cons hc] at h
        rcases List.mem_cons.mp h with h | h
        · exact ⟨c, List.mem_cons_self _ _, Or.inr (Or.inl h)⟩
        · obtain ⟨c', hc', hd⟩ := ih h
          exact ⟨c', List.mem_cons_of_mem _ hc', hd⟩
      | false =>
        rw [titleScan_false_cons hc] at h
        rcases List.mem_cons.mp h with h | h
        · exact ⟨c, List.mem_cons_self _ _, Or.inr (Or.inr h)⟩
        · obtain ⟨c', hc', hd⟩ := ih h
          exact ⟨c', List.mem_cons_of_mem _ hc', hd⟩

theorem titleScan_idem (b : Bool) (w : List Char) :
    titleScan b (titleScan b w) = titleScan b w := by
  induction w generalizing b with
  | nil => rfl
  | cons c cs ih =>
    by_cases hc : c = '-'
    · subst hc
      rw [titleScan_hyphen_cons, titleScan_hyphen_cons, ih]
    · cases b with
      | true =>
        rw [titleScan_true_cons hc, titleScan_true_cons (toUpper_ne_hyphen hc),
          toUpper_toUpper, ih]
      | false =>
        rw [titleScan_false_cons hc, titleScan_false_cons (toLower_ne_hyphen hc),
          toLower_toLower, ih]

theorem titleScan_getLast? {w : List Char} {c : Char} (b : Bool)
    (h : w.getLast? = some c) :
    ∃ d, (titleScan b w).getLast? = some d ∧ (d = c ∨ d = c.toUpper ∨ d = c.toLower) := by
  induction w generalizing b with
  | nil => simp at h
  | cons a cs ih =>
    cases cs with
    | nil =>
      have ha : a = c := by simpa using h
      subst ha
      by_cases hc : a = '-'
      · subst hc
        exact ⟨'-', by rw [titleScan_hyphen_cons]; rfl, Or.inl rfl⟩
      · cases b with
        | true => exact ⟨a.toUpper, by rw [titleScan_true_cons hc]; rfl, Or.inr (Or.inl rfl)⟩
        | false => exact ⟨a.toLower, by rw [titleScan_false_cons hc]; rfl, Or.inr (Or.inr rfl)⟩
    | cons a' cs' =>
      rw [List.getLast?_cons_cons] at h
      have step : ∀ (d0 : Char) (b' : Bool),
          (d0 :: titleScan b' (a' :: cs')).getLast? = (titleScan b' (a' :: cs')).getLast? := by
        intro d0 b'
        obtain ⟨x, xs, hx⟩ := List.exists_cons_of_ne_nil (titleScan_ne_nil (by simp) b' (w := a' :: cs'))
        rw [hx, List.getLast?_cons_cons]
      by_cases hc : a = '-'
      · subst hc
        obtain ⟨d, hd, hcases⟩ := ih (b := true) h
        refine ⟨d, ?_, hcases⟩
        rw [titleScan_hyphen_cons, step '-' true, hd]
      · cases b with
        | true =>
          obtain ⟨d, hd, hcases⟩ := ih (b := false) h
          refine ⟨d, ?_, hcases⟩
          rw [titleScan_true_cons hc, step a.toUpper false, hd]
        | false =>
          obtain ⟨d, hd, hcases⟩ := ih (b := false) h
          refine ⟨d, ?_, hcases⟩
          rw [titleScan_false_cons hc, step a.toLower false, hd]

theorem titleScan_ok {w : List Char} (h : okWordB w = true) :
    okWordB (titleScan true w) = true := by
  obtain ⟨h1, h2, h3, h4⟩ := okWordB_parts h
  apply okWordB_mk
  · exact titleScan_ne_nil h1 true
  · intro d hd
    obtain ⟨c, hc, hcases⟩ := titleScan_chars hd
    obtain ⟨hsp, hct⟩ := h2 c hc
    rcases hcases with rfl | rfl | rfl
    · exact ⟨hsp, hct⟩
    · exact ⟨toUpper_ne_space hsp, by rw [isCtrlB_toUpper]; exact hct⟩
    · exact ⟨toLower_ne_space hsp, by rw [isCtrlB_toLower]; exact hct⟩
  · intro d hd
    cases w with
    | nil => exact absurd rfl h1
    | cons c cs =>
      have hpc : isPunctB c = false := h3 c rfl
      by_cases hc : c = '-'
      · subst hc
        rw [titleScan_hyphen_cons] at hd
        injection hd with hd
        rw [← hd]
        decide
      · rw [titleScan_true_cons hc] at hd
        injection hd with hd
        rw [← hd, isPunctB_toUpper]
        exact hpc
  · intro d hd
    cases hg : w.getLast? with
    | none =>
      rw [List.getLast?_eq_none_iff] at hg
      exact absurd hg h1
    | some c =>
      obtain ⟨d', hd', hcases⟩ := titleScan_getLast? true hg
      rw [hd] at hd'
      injection hd' with hd'
      subst hd'
      have hpc : isPunctB c = false := h4 c hg
      rcases hcases with rfl | rfl | rfl
      · exact hpc
      · rw [isPunctB_toUpper]; exact hpc
      · rw [isPunctB_toLower]; exact hpc

/-! ### Word-level cleaners -/

theorem upperL_ne_nil {w : List Char} (h : w ≠ []) : upperL w ≠ [] := by
  cases w with
  | nil => exact absurd rfl h
  | cons c cs => simp [upperL]

theorem getLast?_map (f : Char → Char) (l : List Char) :
    (l.map f).getLast? = l.getLast?.map f := by
  rw [List.getLast?_eq_head?_reverse, ← List.map_reverse, List.head?_map,
    ← List.getLast?_eq_head?_reverse]

theorem upperL_ok {w : List Char} (h : okWordB w = true) : okWordB (upperL w) = true := by
  obtain ⟨h1, h2, h3, h4⟩ := okWordB_parts h
  apply okWordB_mk
  · exact upperL_ne_nil h1
  · intro d hd
    obtain ⟨c, hc, rfl⟩ := List.mem_map.mp hd
    obtain ⟨hsp, hct⟩ := h2 c hc
    exact ⟨toUpper_ne_space hsp, by rw [isCtrlB_toUpper]; exact hct⟩
  · intro d hd
    unfold upperL at hd
    rw [List.head?_map] at hd
    cases hh : w.head? with
    | none => rw [hh] at hd; simp at hd
    | some c =>
      rw [hh] at hd
      injection hd with hd
      rw [← hd, isPunctB_toUpper]
      exact h3 c hh
  · intro d hd
    unfold upperL at hd
    rw [getLast?_map] at hd
    cases hh : w.getLast? with
    | none => rw [hh] at hd; simp at hd
    | some c =>
      rw [hh] at hd
      injection hd with hd
      rw [← hd, isPunctB_toUpper]
      exact h4 c hh

theorem lookupTbl_mem {β : Type} {tbl : List (List Char × β)} {k : List Char} {v : β}
    (h : lookupTbl tbl k = some v) : ∃ kv ∈ tbl, kv.2 = v := by
  induction tbl with
  | nil => simp [lookupTbl] at h
  | cons kv rest ih =>
    unfold lookupTbl at h
    split at h
    · injection h with h
      exact ⟨kv, List.mem_cons_self _ _, h⟩
    · obtain ⟨kv', hkv', he⟩ := ih h
      exact ⟨kv', List.mem_cons_of_mem _ hkv', he⟩

theorem tableWord_eq_of_lookup {tbl : List (List Char × List Char)}
    {acrs : List (List Char)} {w c : List Char}
    (h : lookupTbl tbl (lowerL w) = some c) : tableWord tbl acrs w = c := by
  unfold tableWord
  rw [h]

theorem tableWord_eq_acr {tbl : List (List Char × List Char)}
    {acrs : List (List Char)} {w : List Char}
    (h : lookupTbl tbl (lowerL w) = none) (ha : upperL w ∈ acrs) :
    tableWord tbl acrs w = upperL w := by
  unfold tableWord
  rw [h]
  simp [ha]

theorem tableWord_eq_title {tbl : List (List Char × List Char)}
    {acrs : List (List Char)} {w : List Char}
    (h : lookupTbl tbl (lowerL w) = none) (ha : upperL w ∉ acrs) :
    tableWord tbl acrs w = titleScan true w := by
  unfold tableWord
  rw [h]
  simp [ha]

theorem tableWord_idem {tbl : List (List Char × List Char)} {acrs : List (List Char)}
    (htbl : ∀ kv ∈ tbl, tableWord tbl acrs kv.2 = kv.2) (w : List Char) :
    tableWord tbl acrs (tableWord tbl acrs w) = tableWord tbl acrs w := by
  cases h : lookupTbl tbl (lowerL w) with
  | some c =>
    rw [tableWord_eq_of_lookup h]
    obtain ⟨kv, hkv, he⟩ := lookupTbl_mem h
    rw [← he]
    exact htbl kv hkv
  | none =>
    by_cases ha : upperL w ∈ acrs
    · rw [tableWord_eq_acr h ha]
      have h' : lookupTbl tbl (lowerL (upperL w)) = none := by rw [lowerL_upperL]; exact h
      have ha' : upperL (upperL w) ∈ acrs := by rw [upperL_upperL]; exact ha
      rw [tableWord_eq_acr h' ha', upperL_upperL]
    · rw [tableWord_eq_title h ha]
      have h' : lookupTbl tbl (lowerL (titleScan true w)) = none := by
        rw [lowerL_titleScan]; exact h
      have ha' : upperL (titleScan true w) ∉ acrs := by rw [upperL_titleScan]; exact ha
      rw [tableWord_eq_title h' ha']
      exact titleScan_idem true w

theorem tableWord_ok {tbl : List (List Char × List Char)} {acrs : List (List Char)}
    (htbl : ∀ kv ∈ tbl, okWordB kv.2 = true) {w : List Char}
    (hw : okWordB w = true) : okWordB (tableWord tbl acrs w) = true := by
  cases h : lookupTbl tbl (lowerL w) with
  | some c =>
    rw [tableWord_eq_of_lookup h]
    obtain ⟨kv, hkv, he⟩ := lookupTbl_mem h
    rw [← he]
    exact htbl kv hkv
  | none =>
    by_cases ha : upperL w ∈ acrs
    · rw [tableWord_eq_acr h ha]
      exact upperL_ok hw
    · rw [tableWord_eq_title h ha]
      exact titleScan_ok hw

theorem mapWords_ok (f : List Char → List Char)
    (hf : ∀ w, okWordB w = true → okWordB (f w) = true)
    (ws : List (List Char)) (h : ∀ w ∈ ws, okWordB w = true) :
    ∀ w ∈ ws.map f, okWordB w = true := by
  intro w hw
  obtain ⟨v, hv, rfl⟩ := List.mem_map.mp hw
  exact hf v (h v hv)

theorem mapWords_idem (f : List Char → List Char)
    (hf : ∀ w, f (f w) = f w) (ws : List (List Char)) :
    (ws.map f).map f = ws.map f := by
  rw [List.map_map]
  exact List.map_congr_left (fun w _ => hf w)

theorem suffixTable_fix : ∀ kv ∈ suffixTable, tableWord suffixTable companyAcrs kv.2 = kv.2 := by
  decide

theorem suffixTable_ok : ∀ kv ∈ suffixTable, okWordB kv.2 = true := by
  decide

theorem jobAbbrevTable_fix : ∀ kv ∈ jobAbbrevTable, tableWord jobAbbrevTable execAcrs kv.2 = kv.2 := by
  decide

theorem jobAbbrevTable_ok : ∀ kv ∈ jobAbbrevTable, okWordB kv.2 = true := by
  decide

theorem stateTable_fix : ∀ kv ∈ stateTable, tableWord stateTable stateAbbrs kv.2 = kv.2 := by
  decide

theorem stateTable_ok : ∀ kv ∈ stateTable, okWordB kv.2 = true := by
  decide

theorem companyCleanL_idem (l : List Char) :
    companyCleanL (companyCleanL l) = companyCleanL l := by
  unfold companyCleanL companyWord
  apply wordPipe_idem
  · intro ws hws
    exact mapWords_ok _ (fun w hw => tableWord_ok suffixTable_ok hw) ws hws
  · intro ws _
    exact mapWords_idem _ (tableWord_idem suffixTable_fix) ws

theorem jobCleanL_idem (l : List Char) :
    jobCleanL (jobCleanL l) = jobCleanL l := by
  unfold jobCleanL jobWord
  apply wordPipe_idem
  · intro ws hws
    exact mapWords_ok _ (fun w hw => tableWord_ok jobAbbrevTable_ok hw) ws hws
  · intro ws _
    exact mapWords_idem _ (tableWord_idem jobAbbrevTable_fix) ws

theorem locCleanL_idem (l : List Char) :
    locCleanL (locCleanL l) = locCleanL l := by
  unfold locCleanL locWord
  apply wordPipe_idem
  · intro ws hws
    exact mapWords_ok _ (fun w hw => tableWord_ok stateTable_ok hw) ws hws
  · intro ws _
    exact mapWords_idem _ (tableWord_idem stateTable_fix) ws

theorem isHon_titleScan (w : List Char) : isHon (titleScan true w) = isHon w := by
  unfold isHon
  rw [lowerL_titleScan]

theorem nameWords_ok (ws : List (List Char)) (h : ∀ w ∈ ws, okWordB w = true) :
    ∀ w ∈ nameWords ws, okWordB w = true := by
  intro w hw
  unfold nameWords at hw
  obtain ⟨v, hv, rfl⟩ := List.mem_map.mp hw
  exact titleScan_ok (h v ((List.dropWhile_sublist isHon).mem hv))

theorem nameWords_idem (ws : List (List Char)) :
    nameWords (nameWords ws) = nameWords ws := by
  unfold nameWords
  have hdrop : List.dropWhile isHon ((List.dropWhile isHon ws).map (titleScan true)) =
      (List.dropWhile isHon ws).map (titleScan true) := by
    apply dropWhile_eq_self_of_head?
    intro w hw
    rw [List.head?_map] at hw
    cases hh : (List.dropWhile isHon ws).head? with
    | none => rw [hh] at hw; simp at hw
    | some v =>
      rw [hh] at hw
      injection hw with hw
      rw [← hw, isHon_titleScan]
      exact dropWhile_head?_not hh
  rw [hdrop]
  exact mapWords_idem _ (titleScan_idem true) _

theorem nameCleanL_idem (l : List Char) :
    nameCleanL (nameCleanL l) = nameCleanL l := by
  unfold nameCleanL
  apply wordPipe_idem
  · exact nameWords_ok
  · intro ws _
    exact nameWords_idem ws

/-! ### Email cleaning -/

theorem collapseDup_head (c : Char) (l : List Char) :
    ∃ t, collapseDup (c :: l) = c :: t := by
  induction l generalizing c with
  | nil => exact ⟨[], rfl⟩
  | cons b rest ih =>
    unfold collapseDup
    split
    · rename_i hcond
      obtain ⟨t, ht⟩ := ih b
      exact ⟨t, by rw [ht, hcond.1]⟩
    · exact ⟨collapseDup (b :: rest), rfl⟩

theorem mem_collapseDup {l : List Char} {c : Char} (h : c ∈ collapseDup l) : c ∈ l := by
  induction l with
  | nil => simpa [collapseDup] using h
  | cons a rest ih =>
    cases rest with
    | nil => simpa [collapseDup] using h
    | cons b t =>
      unfold collapseDup at h
      split at h
      · exact List.mem_cons_of_mem a (ih h)
      · rcases List.mem_cons.mp h with h | h
        · exact h ▸ List.mem_cons_self _ _
        · exact List.mem_cons_of_mem a (ih h)

theorem collapseDup_noDup (l : List Char) : noDupAdjB (collapseDup l) = true := by
  induction l with
  | nil => rfl
  | cons a rest ih =>
    cases rest with
    | nil => rfl
    | cons b t =>
      unfold collapseDup
      split
      · exact ih
      · rename_i hcond
        obtain ⟨u, hu⟩ := collapseDup_head b t
        rw [hu]
        unfold noDupAdjB
        rw [Bool.and_eq_true]
        constructor
        · simp only [Bool.not_eq_true']
          rw [Bool.and_eq_false_iff]
          by_cases hab : a = b
          · right
            rw [Bool.or_eq_false_iff]
            constructor
            · cases hq : a == '@'
              · rfl
              · exact absurd ⟨hab, Or.inl (by simpa using hq)⟩ hcond
            · cases hq : a == '.'
              · rfl
              · exact absurd ⟨hab, Or.inr (by simpa using hq)⟩ hcond
          · left
            simpa using hab
        · rw [← hu]
          exact ih

theorem collapseDup_eq_self {l : List Char} (h : noDupAdjB l = true) :
    collapseDup l = l := by
  induction l with
  | nil => rfl
  | cons a rest ih =>
    cases rest with
    | nil => rfl
    | cons b t =>
      unfold noDupAdjB at h
      rw [Bool.and_eq_true] at h
      obtain ⟨h1, h2⟩ := h
      unfold collapseDup
      split
      · rename_i hcond
        exfalso
        obtain ⟨hab, hq⟩ := hcond
        subst hab
        rcases hq with hq | hq <;> subst hq <;> simp at h1
      · rw [ih h2]

theorem collapseDup_collapseDup (l : List Char) :
    collapseDup (collapseDup l) = collapseDup l :=
  collapseDup_eq_self (collapseDup_noDup l)

theorem emailCleanL_idem (l : List Char) : emailCleanL (emailCleanL l) = emailCleanL l := by
  unfold emailCleanL
  set Y := (lowerL (removeCtrl l)).filter (fun c => !(c == ' ')) with hY
  set r := collapseDup Y with hr
  have hmem : ∀ c ∈ r, ∃ c0, c = Char.toLower c0 ∧ isCtrlB c0 = false ∧ c ≠ ' ' := by
    intro c hc
    have hcY : c ∈ Y := mem_collapseDup hc
    rw [hY, List.mem_filter] at hcY
    obtain ⟨hclow, hcsp⟩ := hcY
    obtain ⟨c0, hc0, rfl⟩ := List.mem_map.mp hclow
    unfold removeCtrl at hc0
    rw [List.mem_filter] at hc0
    refine ⟨c0, rfl, by simpa using hc0.2, ?_⟩
    intro he
    rw [he] at hcsp
    simp at hcsp
  have hctrl : removeCtrl r = r := by
    unfold removeCtrl
    rw [List.filter_eq_self]
    intro c hc
    obtain ⟨c0, rfl, hc0, _⟩ := hmem c hc
    rw [Bool.not_eq_eq_eq_not]
    simpa [isCtrlB_toLower] using hc0
  have hlow : lowerL r = r := by
    unfold lowerL
    conv_rhs => rw [← List.map_id r]
    apply List.map_congr_left
    intro c hc
    obtain ⟨c0, rfl, _, _⟩ := hmem c hc
    exact toLower_toLower c0
  have hsp : r.filter (fun c => !(c == ' ')) = r := by
    rw [List.filter_eq_self]
    intro c hc
    obtain ⟨_, _, _, hne⟩ := hmem c hc
    simpa using hne
  rw [hctrl, hlow, hsp]
  exact collapseDup_collapseDup Y

/-! ### Industry cleaning -/

theorem industryLookup_mem {tbl : List (List Char × List Char)} {t c : List Char}
    (h : industryLookup tbl t = some c) : ∃ kv ∈ tbl, kv.2 = c := by
  induction tbl with
  | nil => simp [industryLookup] at h
  | cons kv rest ih =>
    unfold industryLookup at h
    split at h
    · injection h with h
      exact ⟨kv, List.mem_cons_self _ _, h⟩
    · obtain ⟨kv', hkv', he⟩ := ih h
      exact ⟨kv', List.mem_cons_of_mem _ hkv', he⟩

theorem industryCleanL_eq_of_lookup {l c : List Char}
    (h : industryLookup industryTable (baseNorm l) = some c) : industryCleanL l = c := by
  unfold industryCleanL
  dsimp only
  rw [h]

theorem industryCleanL_eq_of_none {l : List Char}
    (h : industryLookup industryTable (baseNorm l) = none) : industryCleanL l = baseNorm l := by
  unfold industryCleanL
  dsimp only
  rw [h]

theorem industryTable_fix :
    ∀ kv ∈ industryTable, industryCleanL kv.2 = kv.2 := by
  decide

theorem industryCleanL_idem (l : List Char) :
    industryCleanL (industryCleanL l) = industryCleanL l := by
  cases h : industryLookup industryTable (baseNorm l) with
  | some c =>
    rw [industryCleanL_eq_of_lookup h]
    obtain ⟨kv, hkv, he⟩ := industryLookup_mem h
    rw [← he]
    exact industryTable_fix kv hkv
  | none =>
    rw [industryCleanL_eq_of_none h]
    have h' : industryLookup industryTable (baseNorm (baseNorm l)) = none := by
      rw [baseNorm_idem]; exact h
    rw [industryCleanL_eq_of_none h', baseNorm_idem]

/-! ### Row-level cleaning and deduplication -/

theorem cleanRow_idem (r : Row) : cleanRow (cleanRow r) = cleanRow r := by
  show Row.mk _ _ _ _ _ _ = Row.mk _ _ _ _ _ _
  rw [Row.mk.injEq]
  exact ⟨congrArg String.mk (nameCleanL_idem _),
    congrArg String.mk (emailCleanL_idem _),
    congrArg String.mk (companyCleanL_idem _),
    congrArg String.mk (jobCleanL_idem _),
    congrArg String.mk (locCleanL_idem _),
    congrArg String.mk (industryCleanL_idem _)⟩

theorem mem_dedupRows {seen : List String} {l : List Row} {r : Row}
    (h : r ∈ dedupRows seen l) : r ∈ l := by
  induction l generalizing seen with
  | nil => simpa [dedupRows] using h
  | cons a rest ih =>
    unfold dedupRows at h
    split at h
    · exact List.mem_cons_of_mem a (ih h)
    · rcases List.mem_cons.mp h with h | h
      · exact h ▸ List.mem_cons_self _ _
      · exact List.mem_cons_of_mem a (ih h)

theorem dedupRows_fresh_nodup (seen : List String) (l : List Row) :
    (∀ r ∈ dedupRows seen l, r.email ∉ seen) ∧
      ((dedupRows seen l).map (fun r => r.email)).Nodup := by
  induction l generalizing seen with
  | nil => exact ⟨by simp [dedupRows], by simp [dedupRows]⟩
  | cons a rest ih =>
    unfold dedupRows
    split
    · exact ih seen
    · rename_i hnot
      obtain ⟨ihf, ihn⟩ := ih (a.email :: seen)
      constructor
      · intro r hr
        rcases List.mem_cons.mp hr with rfl | hr
        · exact hnot
        · intro hs
          exact ihf r hr (List.mem_cons_of_mem _ hs)
      · rw [List.map_cons, List.nodup_cons]
        constructor
        · intro hmem
          obtain ⟨r, hr, he⟩ := List.mem_map.mp hmem
          exact ihf r hr (he ▸ List.mem_cons_self _ _)
        · exact ihn

theorem dedupRows_eq_self {seen : List String} {l : List Row}
    (hfresh : ∀ r ∈ l, r.email ∉ seen)
    (hnodup : (l.map (fun r => r.email)).Nodup) : dedupRows seen l = l := by
  induction l generalizing seen with
  | nil => rfl
  | cons a rest ih =>
    rw [List.map_cons, List.nodup_cons] at hnodup
    obtain ⟨hhead, htail⟩ := hnodup
    unfold dedupRows
    rw [if_neg (hfresh a (List.mem_cons_self _ _))]
    congr 1
    apply ih _ htail
    intro r hr hs
    rcases List.mem_cons.mp hs with he | hs
    · exact hhead (he ▸ List.mem_map_of_mem (fun r => r.email) hr)
    · exact hfresh r (List.mem_cons_of_mem _ hr) hs

theorem dedupRows_dedupRows (l : List Row) :
    dedupRows [] (dedupRows [] l) = dedupRows [] l := by
  obtain ⟨_, hnodup⟩ := dedupRows_fresh_nodup [] l
  exact dedupRows_eq_self (by simp) hnodup

/-- C6.  Cleaning is idempotent: cleaning already-cleaned rows changes
nothing, on every field and including deduplication. -/
theorem cleaning_idempotent (rows : List Row) :
    cleanStage (cleanStage rows) = cleanStage rows := by
  unfold cleanStage
  have hmap : (dedupRows [] (rows.map cleanRow)).map cleanRow =
      dedupRows [] (rows.map cleanRow) := by
    conv_rhs => rw [← List.map_id (dedupRows [] (rows.map cleanRow))]
    apply List.map_congr_left
    intro r hr
    obtain ⟨r0, _, rfl⟩ := List.mem_map.mp (mem_dedupRows hr)
    exact cleanRow_idem r0
  rw [hmap]
  exact dedupRows_dedupRows _

/-! ### Validation threshold -/

/-- C3.  A batch in which strictly fewer than 50% of the rows pass the
required-field and email checks is invalid; with all required columns
present and at least 51% of the rows passing (49%/51% boundary at 50%),
the batch is valid and the pipeline proceeds with exactly the passing rows,
recording the rest as `invalid_rows`. -/
theorem validator_threshold (columns : List String) (rows : List Row) :
    (100 * (rows.filter rowPasses).length < 50 * rows.length →
      (validate columns rows).is_valid = false) ∧
    ((∀ c ∈ requiredColumns, c ∈ columns) → 0 < rows.length →
      51 * rows.length ≤ 100 * (rows.filter rowPasses).length →
      (validate columns rows).is_valid = true ∧
      (validate columns rows).validRows = rows.filter rowPasses ∧
      (validate columns rows).invalid_rows =
        rows.length - (rows.filter rowPasses).length) := by
  constructor
  · intro h
    have hlt : 2 * (rows.filter rowPasses).length < rows.length := by omega
    unfold validate
    dsimp only
    split
    · rfl
    · split
      · rfl
      · rfl
  · intro hcols hpos hge
    have hmiss : requiredColumns.filter (fun c => !columns.contains c) = [] := by
      rw [List.filter_eq_nil_iff]
      intro c hc
      simp [hcols c hc]
    have hne : rows.isEmpty = false := by
      cases rows with
      | nil => simp at hpos
      | cons _ _ => rfl
    have hthr : ¬(2 * (rows.filter rowPasses).length < rows.length) := by omega
    unfold validate
    dsimp only
    rw [hmiss]
    rw [show (!([] : List String).isEmpty) = false from rfl, if_neg (by simp)]
    rw [hne, if_neg (by simp)]
    rw [if_neg hthr]
    exact ⟨rfl, rfl, rfl⟩

/-! ### Deduplication keeps exactly the first occurrence -/

theorem dedupRows_filter_eq {seen : List String} {l : List Row} {e : String}
    (he : e ∉ seen) :
    (dedupRows seen l).filter (fun r => r.email == e) =
      (l.find? (fun r => r.email == e)).toList := by
  induction l generalizing seen with
  | nil => simp [dedupRows]
  | cons a rest ih =>
    by_cases hp : a.email = e
    · subst hp
      unfold dedupRows
      rw [if_neg he]
      rw [List.filter_cons_of_pos (by simp)]
      rw [List.find?_cons_of_pos _ (by simp)]
      have hnil : (dedupRows (a.email :: seen) rest).filter (fun r => r.email == a.email) = [] := by
        rw [List.filter_eq_nil_iff]
        intro r hr hre
        have hfresh := (dedupRows_fresh_nodup (a.email :: seen) rest).1 r hr
        rw [beq_iff_eq] at hre
        exact hfresh (hre ▸ List.mem_cons_self _ _)
      rw [hnil]
      rfl
    · have hpa : ¬((fun (r : Row) => r.email == e) a = true) := by simpa using hp
      unfold dedupRows
      split
      · rw [ih he, List.find?_cons_of_neg (p := fun (r : Row) => r.email == e) rest hpa]
      · rw [List.filter_cons_of_neg (p := fun (r : Row) => r.email == e) hpa]
        rw [List.find?_cons_of_neg (p := fun (r : Row) => r.email == e) rest hpa]
        exact ih (by
          intro hmem
          rcases List.mem_cons.mp hmem with hh | hh
          · exact hp hh.symm
          · exact he hh)

theorem extractGo_emails (i n : Nat) (rows : List Row) :
    (extractGo i n rows).1.map (fun l => l.email) =
      (rows.filter constructibleRow).map (fun r => r.email) := by
  induction rows generalizing i n with
  | nil => rfl
  | cons r rs ih =>
    unfold extractGo
    split
    · rename_i hc
      rw [List.filter_cons, if_pos (by simpa using hc)]
      dsimp only
      rw [List.map_cons, List.map_cons, ih]
      rfl
    · rename_i hc
      rw [List.filter_cons, if_neg (by simpa using hc)]
      dsimp only
      exact ih (i + 1) n

/-- C4.  Two input rows whose emails agree after normalisation leave exactly
one surviving row after cleaning — the cleaned first occurrence, whose other
fields it carries — and extraction then produces exactly one Lead with that
email. -/
theorem cleaning_dedup_first (rows : List Row) (e : String) (r0 : Row)
    (h2 : 2 ≤ rows.countP (fun r => (cleanRow r).email == e))
    (hf : rows.find? (fun r => (cleanRow r).email == e) = some r0) :
    (cleanStage rows).filter (fun r => r.email == e) = [cleanRow r0] ∧
      (constructibleRow (cleanRow r0) = true →
        ((extract (cleanStage rows)).1.filter (fun l => l.email == e)).length = 1) := by
  have hfilter : (cleanStage rows).filter (fun r => r.email == e) = [cleanRow r0] := by
    unfold cleanStage
    rw [dedupRows_filter_eq (by simp)]
    rw [List.find?_map]
    rw [show ((fun (r : Row) => r.email == e) ∘ cleanRow) =
      (fun r => (cleanRow r).email == e) from rfl]
    rw [hf]
    rfl
  refine ⟨hfilter, ?_⟩
  intro hcon
  have hcount : ((extract (cleanStage rows)).1.filter (fun l => l.email == e)).length =
      (extract (cleanStage rows)).1.countP (fun l => l.email == e) := by
    rw [List.countP_eq_length_filter]
  rw [hcount]
  have h1 : (extract (cleanStage rows)).1.countP (fun l => l.email == e) =
      ((extract (cleanStage rows)).1.map (fun l => l.email)).countP (fun s => s == e) := by
    rw [List.countP_map]
    rfl
  rw [h1]
  unfold extract
  rw [extractGo_emails, List.countP_map]
  rw [show ((fun (s : String) => s == e) ∘ (fun (r : Row) => r.email)) =
    (fun (r : Row) => r.email == e) from rfl]
  rw [List.countP_filter]
  have hcomm : (cleanStage rows).countP (fun r => (r.email == e) && constructibleRow r) =
      (cleanStage rows).countP (fun r => constructibleRow r && (r.email == e)) := by
    apply List.countP_congr
    intro r _
    rw [Bool.and_comm]
  rw [hcomm, ← List.countP_filter, hfilter]
  simp [List.countP_cons, hcon]

/-! ### Extraction -/

theorem extractGo_spec (i n : Nat) (rows : List Row) :
    (extractGo i n rows).1.length + (extractGo i n rows).2.length = rows.length ∧
      ∀ j (h : j < rows.length), constructibleRow (rows.get ⟨j, h⟩) = false →
        ∃ err ∈ (extractGo i n rows).2,
          err.row_index = i + j ∧ err.reason = "missing required field" := by
  induction rows generalizing i n with
  | nil =>
    refine ⟨rfl, ?_⟩
    intro j h
    simp at h
  | cons r rs ih =>
    unfold extractGo
    split
    · rename_i hc
      obtain ⟨ihlen, iherr⟩ := ih (i + 1) (n + 1)
      dsimp only
      refine ⟨by simp only [List.length_cons]; omega, ?_⟩
      intro j hj hcon
      cases j with
      | zero =>
        rw [show (r :: rs).get ⟨0, hj⟩ = r from rfl] at hcon
        rw [hc] at hcon
        exact absurd hcon (by simp)
      | succ k =>
        have hk : k < rs.length := by simpa using hj
        have hget : (r :: rs).get ⟨k + 1, hj⟩ = rs.get ⟨k, hk⟩ := rfl
        rw [hget] at hcon
        obtain ⟨err, hmem, hidx, hreason⟩ := iherr k hk hcon
        exact ⟨err, hmem, by omega, hreason⟩
    · rename_i hc
      obtain ⟨ihlen, iherr⟩ := ih (i + 1) n
      dsimp only
      refine ⟨by simp only [List.length_cons]; omega, ?_⟩
      intro j hj hcon
      cases j with
      | zero =>
        exact ⟨⟨i, "missing required field"⟩, List.mem_cons_self _ _, by simp, rfl⟩
      | succ k =>
        have hk : k < rs.length := by simpa using hj
        have hget : (r :: rs).get ⟨k + 1, hj⟩ = rs.get ⟨k, hk⟩ := rfl
        rw [hget] at hcon
        obtain ⟨err, hmem, hidx, hreason⟩ := iherr k hk hcon
        exact ⟨err, List.mem_cons_of_mem _ hmem, by omega, hreason⟩

/-- C7.  Extraction never over-produces: it yields at most one Lead per
cleaned row (`len(leads) ≤ len(rows)`, with the deficit exactly the error
count), and each row failing construction is skipped with a recorded
`\x7brow_index, reason\x7d` entry rather than aborting the batch. -/
theorem extraction_never_overproduces (rows : List Row) :
    (extract rows).1.length ≤ rows.length ∧
      (extract rows).1.length + (extract rows).2.length = rows.length ∧
      ∀ j (h : j < rows.length), constructibleRow (rows.get ⟨j, h⟩) = false →
        ∃ err ∈ (extract rows).2,
          err.row_index = j ∧ err.reason = "missing required field" := by
  unfold extract
  obtain ⟨hlen, herr⟩ := extractGo_spec 0 1 rows
  refine ⟨by omega, hlen, ?_⟩
  intro j hj hcon
  obtain ⟨err, hmem, hidx, hreason⟩ := herr j hj hcon
  exact ⟨err, hmem, by omega, hreason⟩

/-! ### The orchestrator's partial-failure policy -/

/-- C5.  A failing validation (`is_valid = false`) is the only condition
that aborts the pipeline before scoring: it yields a failed run with no
scored leads and validation's error list.  When validation passes, every
stage — cleaning, extraction, enrichment, scoring, quality check — runs in
best-effort mode and is marked `completed`, per-record failures having been
dropped and counted rather than failing a stage. -/
theorem pipeline_partial_failure (columns : List String) (rows : List Row) :
    ((validate columns rows).is_valid = false →
      (runPipeline columns rows).success = false ∧
        (runPipeline columns rows).scored_leads = [] ∧
        (runPipeline columns rows).report = none ∧
        (runPipeline columns rows).pipeline_error =
          some (String.intercalate "; " (validate columns rows).errors) ∧
        (runPipeline columns rows).stage_results.map (fun s => s.stage) = ["validation"]) ∧
    ((validate columns rows).is_valid = true →
      (runPipeline columns rows).success = true ∧
        (runPipeline columns rows).pipeline_error = none ∧
        (runPipeline columns rows).stage_results.map (fun s => s.status) =
          List.replicate 6 StageStatus.completed ∧
        (runPipeline columns rows).scored_leads =
          (((extract (cleanStage (validate columns rows).validRows)).1.map
            enrichLead).map scoreLead).filter okScored ∧
        (runPipeline columns rows).report =
          some (qualityCheck
            (((extract (cleanStage (validate columns rows).validRows)).1.map
              enrichLead).map scoreLead)
            rows.length (validate columns rows).warnings.length
            (extract (cleanStage (validate columns rows).validRows)).2.length)) := by
  constructor
  · intro h
    unfold runPipeline
    dsimp only
    rw [h]
    rw [if_neg (by simp)]
    exact ⟨rfl, rfl, rfl, rfl, rfl⟩
  · intro h
    unfold runPipeline
    dsimp only
    rw [h]
    rw [if_pos rfl]
    exact ⟨rfl, rfl, rfl, rfl, rfl⟩

/-! ### Quality-report arithmetic -/

/-- C8.  For every completed run the QualityReport satisfies
`success_rate = successful_records / total_records * 100` and
`failed_records = total_records − successful_records`; in particular 95
successful leads out of 100 yield `success_rate = 95.0` and
`failed_records = 5`. -/
theorem quality_report_arith (scored : List ScoredLead) (total warnings errors : Nat)
    (h : total ≠ 0) :
    (qualityCheck scored total warnings errors).success_rate =
      ((qualityCheck scored total warnings errors).successful_records : ℚ) / total * 100 ∧
    (qualityCheck scored total warnings errors).failed_records =
      total - (qualityCheck scored total warnings errors).successful_records ∧
    ((scored.filter okScored).length = 95 → total = 100 →
      (qualityCheck scored total warnings errors).success_rate = 95 ∧
        (qualityCheck scored total warnings errors).failed_records = 5) := by
  refine ⟨?_, rfl, ?_⟩
  · unfold qualityCheck
    dsimp only
    rw [if_neg h]
  · intro h95 h100
    subst h100
    constructor
    · unfold qualityCheck
      dsimp only
      rw [if_neg h, h95]
      norm_num
    · unfold qualityCheck
      dsimp only
      rw [h95]

/-! ### The dashboard table's initial sort -/

theorem cmpScoreDesc_le_iff (a b : Frontend.FLead) :
    Frontend.cmpScoreDesc a b ≤ 0 ↔ b.score ≤ a.score := by
  unfold Frontend.cmpScoreDesc
  split
  · rename_i h
    constructor
    · intro h1; norm_num at h1
    · intro hb; exact absurd (lt_of_le_of_lt hb h) (lt_irrefl _)
  · rename_i h
    split
    · rename_i h2
      constructor
      · intro _; exact le_of_lt h2
      · intro _; norm_num
    · rename_i h2
      constructor
      · intro _; exact le_of_not_lt h
      · intro _; exact le_refl 0

theorem sortLe_iff (a b : Frontend.FLead) :
    decide (Frontend.cmpScoreDesc a b ≤ 0) = true ↔ b.score ≤ a.score := by
  rw [decide_eq_true_eq]
  exact cmpScoreDesc_le_iff a b

/-- C9.  On initial render the LeadTable's sort state is field `score`,
direction `desc`, and the displayed rows are a permutation of the leads
whose scores are non-increasing — not the pipeline's insertion order. -/
theorem leadtable_initial_sort (leads : List Frontend.FLead) :
    Frontend.initialSortState.field = Frontend.SortField.scoreF ∧
    Frontend.initialSortState.dir = some Frontend.SortDir.desc ∧
    (Frontend.displayedLeads leads).Perm leads ∧
    (Frontend.displayedLeads leads).Pairwise (fun a b => b.score ≤ a.score) := by
  refine ⟨rfl, rfl, List.mergeSort_perm leads _, ?_⟩
  unfold Frontend.displayedLeads
  have htrans : ∀ (a b c : Frontend.FLead),
      (fun a b => decide (Frontend.cmpScoreDesc a b ≤ 0)) a b = true →
      (fun a b => decide (Frontend.cmpScoreDesc a b ≤ 0)) b c = true →
      (fun a b => decide (Frontend.cmpScoreDesc a b ≤ 0)) a c = true := by
    intro a b c hab hbc
    rw [sortLe_iff] at hab hbc ⊢
    exact le_trans hbc hab
  have htotal : ∀ (a b : Frontend.FLead),
      ((fun a b => decide (Frontend.cmpScoreDesc a b ≤ 0)) a b ||
        (fun a b => decide (Frontend.cmpScoreDesc a b ≤ 0)) b a) = true := by
    intro a b
    rw [Bool.or_eq_true, sortLe_iff, sortLe_iff]
    exact le_total b.score a.score
  have hs := List.sorted_mergeSort htrans htotal leads
  exact hs.imp (fun hab => (sortLe_iff _ _).mp hab)

/-! ### The dashboard's filter computation -/

theorem matchesOpt_iff (v : String) (field : Option String) :
    Frontend.matchesOpt v field = true ↔
      (v = "" ∨ ∃ s, field = some s ∧
        Frontend.strIncludes (Frontend.lowerS s) (Frontend.lowerS v) = true) := by
  unfold Frontend.matchesOpt
  cases field with
  | none =>
    simp
  | some s =>
    simp

/-- C10.  A lead is displayed by the dashboard iff it satisfies all four
filters conjunctively: an empty search / industry / location filter matches
everything; a non-empty search term must occur case-insensitively in name,
company, or job title; a non-empty industry or location filter excludes
leads whose optional field is absent; and the score must be at least
`minScore`. -/
theorem dashboard_filter_iff (f : Frontend.FilterState)
    (leads : List Frontend.FLead) (l : Frontend.FLead) :
    l ∈ Frontend.filteredLeads f leads ↔
      l ∈ leads ∧
        (f.searchTerm = "" ∨
          (Frontend.strIncludes (Frontend.lowerS l.name) (Frontend.lowerS f.searchTerm) = true ∨
            Frontend.strIncludes (Frontend.lowerS l.company) (Frontend.lowerS f.searchTerm) = true ∨
            Frontend.strIncludes (Frontend.lowerS l.job_title) (Frontend.lowerS f.searchTerm) = true)) ∧
        (f.industry = "" ∨ ∃ s, l.industry = some s ∧
          Frontend.strIncludes (Frontend.lowerS s) (Frontend.lowerS f.industry) = true) ∧
        (f.location = "" ∨ ∃ s, l.location = some s ∧
          Frontend.strIncludes (Frontend.lowerS s) (Frontend.lowerS f.location) = true) ∧
        f.minScore ≤ l.score := by
  unfold Frontend.filteredLeads
  rw [List.mem_filter]
  constructor
  · rintro ⟨hmem, hmatch⟩
    unfold Frontend.leadMatches at hmatch
    rw [Bool.and_eq_true, Bool.and_eq_true, Bool.and_eq_true] at hmatch
    obtain ⟨⟨⟨hsearch, hind⟩, hloc⟩, hscore⟩ := hmatch
    refine ⟨hmem, ?_, (matchesOpt_iff _ _).mp hind, (matchesOpt_iff _ _).mp hloc,
      by simpa using hscore⟩
    unfold Frontend.matchesSearch at hsearch
    rw [Bool.or_eq_true] at hsearch
    rcases hsearch with hsearch | hsearch
    · left; simpa using hsearch
    · right
      rw [Bool.or_eq_true, Bool.or_eq_true] at hsearch
      tauto
  · rintro ⟨hmem, hsearch, hind, hloc, hscore⟩
    refine ⟨hmem, ?_⟩
    unfold Frontend.leadMatches
    rw [Bool.and_eq_true, Bool.and_eq_true, Bool.and_eq_true]
    refine ⟨⟨⟨?_, (matchesOpt_iff _ _).mpr hind⟩, (matchesOpt_iff _ _).mpr hloc⟩,
      by simpa using hscore⟩
    unfold Frontend.matchesSearch
    rw [Bool.or_eq_true]
    rcases hsearch with hsearch | hsearch
    · left; simpa using hsearch
    · right
      rw [Bool.or_eq_true, Bool.or_eq_true]
      tauto

/-! ### Bounds on the scoring factors -/

theorem jobTitleScore_mem (t : String) : 0 ≤ jobTitleScore t ∧ jobTitleScore t ≤ 10 := by
  unfold jobTitleScore
  dsimp only
  repeat' split
  all_goals norm_num

theorem companySizeScore_mem (s : CompanySize) :
    3 ≤ companySizeScore s ∧ companySizeScore s ≤ 10 := by
  cases s <;> simp [companySizeScore]

theorem industryScore_mem (s : String) : 0 ≤ industryScore s ∧ industryScore s ≤ 10 := by
  unfold industryScore
  repeat' split
  all_goals norm_num

theorem emailScore_mem (b : Option Bool) : -10 ≤ emailScore b ∧ emailScore b ≤ 5 := by
  rcases b with _ | b
  · simp [emailScore]
  · cases b <;> simp [emailScore]

theorem rawScore_mem (l : ELead) : -10 ≤ rawScore l ∧ rawScore l ≤ 35 := by
  have h1 := jobTitleScore_mem l.job_title
  have h2 := companySizeScore_mem l.company_size
  have h3 := industryScore_mem l.industry
  have h4 := emailScore_mem l.email_valid
  unfold rawScore
  omega

/-! ### Bounds on the normalised score -/

theorem round1_nonneg {q : ℚ} (h : 0 ≤ q) : 0 ≤ round1 q := by
  unfold round1
  have h10 : (0 : ℚ) ≤ q * 10 := by positivity
  have : (0 : ℤ) ≤ round (q * 10) := by
    rw [round_eq]
    have : (0 : ℚ) ≤ q * 10 + 1 / 2 := by linarith
    exact Int.floor_nonneg.mpr this
  have : (0 : ℚ) ≤ (round (q * 10) : ℚ) := by exact_mod_cast this
  linarith

theorem round1_le_100 {q : ℚ} (h : q ≤ 100) : round1 q ≤ 100 := by
  unfold round1
  have : round (q * 10) ≤ round (1000 : ℚ) := by
    rw [round_eq, round_eq]
    apply Int.floor_le_floor
    linarith
  have h1000 : round (1000 : ℚ) = 1000 := by
    have : ((1000 : ℤ) : ℚ) = (1000 : ℚ) := by norm_num
    rw [← this, round_intCast]
  rw [h1000] at this
  have : ((round (q * 10) : ℚ)) ≤ 1000 := by exact_mod_cast this
  linarith

theorem clamp100_mem (q : ℚ) : 0 ≤ clamp100 q ∧ clamp100 q ≤ 100 := by
  unfold clamp100
  constructor
  · exact le_min (by norm_num) (le_max_left 0 q)
  · exact min_le_left 100 _

theorem scoreOfRaw_mem (raw : ℤ) : 0 ≤ scoreOfRaw raw ∧ scoreOfRaw raw ≤ 100 := by
  unfold scoreOfRaw
  obtain ⟨h0, h100⟩ := clamp100_mem (((raw : ℚ) + 10) / 45 * 100)
  exact ⟨round1_nonneg h0, round1_le_100 h100⟩

/-- C1.  For every lead processed by the Scorer the resulting score lies in
`[0, 100]`, whatever the job title, company-size bucket, industry, or email
validity. -/
theorem scorer_score_bounds (l : ELead) :
    0 ≤ (scoreLead l).score ∧ (scoreLead l).score ≤ 100 :=
  scoreOfRaw_mem (rawScore l)

/-- C2.  The Scorer computes `raw` as the sum of the four factor scores,
`raw ∈ [−10, 35]`, and the final score is
`clamp(((raw + 10) / 45) * 100, 0, 100)` rounded to one decimal place. -/
theorem scorer_formula (l : ELead) :
    (scoreLead l).raw_total =
        (scoreLead l).job_title_score + (scoreLead l).company_size_score +
          (scoreLead l).industry_score + (scoreLead l).email_score ∧
      -10 ≤ (scoreLead l).raw_total ∧ (scoreLead l).raw_total ≤ 35 ∧
      (scoreLead l).score = round1 (clamp100 ((((scoreLead l).raw_total : ℚ) + 10) / 45 * 100)) := by
  refine ⟨rfl, (rawScore_mem l).1, (rawScore_mem l).2, rfl⟩


/-! ## Witnesses -/

/-- Witness for C3: a 100-row batch with exactly 49% passing rows is
invalid, one with exactly 51% passing rows is valid. -/
theorem validator_threshold_witness :
    (validate fullColumns exBatch49).is_valid = false ∧
      (validate fullColumns exBatch51).is_valid = true := by
  constructor
  · exact (validator_threshold fullColumns exBatch49).1 (by decide)
  · exact ((validator_threshold fullColumns exBatch51).2
      (by decide) (by decide) (by decide)).1

/-- Witness for C4: two rows with emails `" JOHN@x.com"` and `"john@X.COM"`
leave exactly one cleaned row and one extracted Lead for `john@x.com`,
carrying the first row's fields. -/
theorem cleaning_dedup_first_witness :
    (cleanStage exDupRows).filter (fun r => r.email == "john@x.com") = [cleanRow exDupR1] ∧
      ((extract (cleanStage exDupRows)).1.filter
        (fun l => l.email == "john@x.com")).length = 1 := by
  obtain ⟨h1, h2⟩ := cleaning_dedup_first exDupRows "john@x.com" exDupR1 (by decide) (by decide)
  exact ⟨h1, h2 (by decide)⟩

/-- Witness for C5: a passing batch completes every stage; a batch with
missing required columns aborts with no scored leads. -/
theorem pipeline_partial_failure_witness :
    ((runPipeline fullColumns exBatchSmall).success = true ∧
      (runPipeline fullColumns exBatchSmall).stage_results.map (fun s => s.status) =
        List.replicate 6 StageStatus.completed) ∧
    ((runPipeline partialColumns exBatchSmall).success = false ∧
      (runPipeline partialColumns exBatchSmall).scored_leads = []) := by
  constructor
  · obtain ⟨h1, _, h3, _⟩ := (pipeline_partial_failure fullColumns exBatchSmall).2 (by decide)
    exact ⟨h1, h3⟩
  · obtain ⟨h1, h2, _⟩ := (pipeline_partial_failure partialColumns exBatchSmall).1 (by decide)
    exact ⟨h1, h2⟩

/-- Witness for C7: in a 3-row batch whose middle row cannot be
constructed, extraction produces at most 3 leads, leads plus errors cover
the batch, and the failing row is recorded at index 1. -/
theorem extraction_never_overproduces_witness :
    (extract exMixedRows).1.length ≤ exMixedRows.length ∧
      (extract exMixedRows).1.length + (extract exMixedRows).2.length = exMixedRows.length ∧
      ∃ err ∈ (extract exMixedRows).2,
        err.row_index = 1 ∧ err.reason = "missing required field" := by
  obtain ⟨h1, h2, h3⟩ := extraction_never_overproduces exMixedRows
  exact ⟨h1, h2, h3 1 (by decide) (by decide)⟩

/-- Witness for C8: 95 passing leads out of 100 total give
`success_rate = 95` and `failed_records = 5`. -/
theorem quality_report_arith_witness :
    (qualityCheck exScoredBatch 100 0 0).success_rate = 95 ∧
      (qualityCheck exScoredBatch 100 0 0).failed_records = 5 := by
  obtain ⟨-, -, h⟩ := quality_report_arith exScoredBatch 100 0 0 (by decide)
  exact h (by decide) rfl

end LeadPipeline
